import Mathlib

/-!
Verification development for the btc_stamps indexer core.

The Python source under `src/` is shallowly embedded below:

* Python `decimal.Decimal` values (as used by `src20.py`, always finite
  mantissa/exponent pairs) become the structure `PyDec` with exact
  integer arithmetic; `NaN`/`Infinity` parse results are tracked by `PParsed`.
* The SRC-20 processor (`Src20Processor` in
  `src/indexer/src/index_core/src20.py`) becomes pure state-transformer
  functions over a record `SrcOp` (one record per `src20_dict`), an explicit
  in-block shadow list, and function-valued snapshots of the persistent
  database tables.
* The balance fold and the canonical per-block ledger string
  (`update_src20_balances`, `update_balance_table`, `process_balance_updates`,
  `format_decimal`) are embedded over lists of balance rows.
* `check_format`, `decode_base64` / `decode_base64_with_repair`,
  `base62_encode` / `create_base62_hash` and the classification tail of
  `parse_stamp` are embedded directly.

Repository code that the claims depend on but that is not present under
`src/` (helpers living in `index_core/database.py`, `index_core/util.py`,
`index_core/models.py` and the `config` module) is modelled from the
specification; every such definition carries a doc comment starting with
`Modelled from the spec:`.  External library calls (`hashlib.sha256`,
`base64.b64decode` and friends) are taken as function parameters.
-/

namespace BtcStamps

/-! ## Decimal numbers

Python's `decimal.Decimal` stores a sign/coefficient/exponent triple; every
finite value is `mant * 10 ^ exp`.  All decimals handled by the embedded code
are finite, so a pair of integers suffices; `NaN` and infinities appear only
as *parse results* of `Decimal(str)` and are covered by `PParsed` below.
Arithmetic here is exact (the source never exceeds the default 28-digit
context in the regions the claims touch). -/

structure PyDec where
  mant : Int
  exp : Int
deriving DecidableEq, Repr

namespace PyDec

def ofInt (n : Int) : PyDec := ⟨n, 0⟩

def zero : PyDec := ⟨0, 0⟩

/-- Rational value of a decimal. -/
def toRat (d : PyDec) : ℚ := (d.mant : ℚ) * 10 ^ d.exp

/-- Mantissa of `a` after rescaling both arguments to the common
(smaller) exponent. -/
def alignL (a b : PyDec) : Int := a.mant * 10 ^ (a.exp - min a.exp b.exp).toNat

/-- Mantissa of `b` after rescaling both arguments to the common
(smaller) exponent. -/
def alignR (a b : PyDec) : Int := b.mant * 10 ^ (b.exp - min a.exp b.exp).toNat

/-- Exact decimal addition (Python `Decimal.__add__` on in-range values). -/
def add (a b : PyDec) : PyDec := ⟨alignL a b + alignR a b, min a.exp b.exp⟩

/-- Exact decimal subtraction. -/
def sub (a b : PyDec) : PyDec := ⟨alignL a b - alignR a b, min a.exp b.exp⟩

/-- Decimal comparison `a <= b` (value order, as in Python). -/
def ble (a b : PyDec) : Bool := alignL a b ≤ alignR a b

/-- Decimal comparison `a < b` (value order, as in Python). -/
def blt (a b : PyDec) : Bool := alignL a b < alignR a b

/-- Decimal value equality `a == b` (Python compares by value, not by
representation). -/
def beq (a b : PyDec) : Bool := alignL a b = alignR a b

/-- Python `min` on two decimals (returns the first argument on ties). -/
def minD (a b : PyDec) : PyDec := if ble b a ∧ ¬ ble a b then b else a

/-- Python truthiness of a decimal: `Decimal(0)` is falsy. -/
def truthy (d : PyDec) : Bool := d.mant ≠ 0

/-- Fuel-driven loop of `normalize`: strip factors of ten from the
mantissa, bumping the exponent. -/
def normAux : Nat → Int → Int → PyDec
  | 0, m, e => ⟨m, e⟩
  | fuel + 1, m, e => if m ≠ 0 ∧ m % 10 = 0 then normAux fuel (m / 10) (e + 1) else ⟨m, e⟩

/-- Python `Decimal.normalize()`: canonical representation with all trailing
zeros removed from the coefficient (zero normalizes to exponent 0). -/
def normalize (d : PyDec) : PyDec :=
  if d.mant = 0 then ⟨0, 0⟩ else normAux d.mant.natAbs d.mant d.exp

/-- Python `int(d)`: truncation toward zero. -/
def truncInt (d : PyDec) : Int :=
  if 0 ≤ d.exp then d.mant * 10 ^ d.exp.toNat else d.mant / (10 ^ (-d.exp).toNat : Int)

/-- Number of decimal places of `d` as the source computes it:
`-int(amt.as_tuple().exponent)`. -/
def decimalLength (d : PyDec) : Int := -d.exp

end PyDec

/-- Result of `Decimal(str)`: a finite value, a NaN, or a signed infinity. -/
inductive PParsed where
  | num (d : PyDec)
  | nan
  | inf
  | ninf
deriving DecidableEq, Repr

/-! ## Characters, digit strings, lexicographic order -/

def isAsciiDigit (c : Char) : Bool := '0' ≤ c ∧ c ≤ '9'

/-- Python `str.lower()` restricted to the ASCII range the sources use;
defined over the character list so that it evaluates in the kernel. -/
def strLower (s : String) : String := ⟨s.data.map Char.toLower⟩

/-- Python `str.upper()` on ASCII strings. -/
def strUpper (s : String) : String := ⟨s.data.map Char.toUpper⟩

/-- Python `str.startswith`. -/
def strStartsWith (s t : String) : Bool := t.data.isPrefixOf s.data

def digitChar (n : Nat) : Char := Char.ofNat (48 + n)

/-- Fuel-driven digits of a natural number, most significant first. -/
def natCharsAux : Nat → Nat → List Char
  | 0, _ => []
  | fuel + 1, n => if n < 10 then [digitChar n] else natCharsAux fuel (n / 10) ++ [digitChar (n % 10)]

/-- Decimal digit string of a natural number (model of Python `str(int)`
for nonnegative arguments). -/
def natChars (n : Nat) : List Char := natCharsAux (n + 1) n

/-- Model of Python `str(int)`. -/
def intChars (n : Int) : List Char :=
  if n < 0 then '-' :: natChars n.natAbs else natChars n.natAbs

def intStr (n : Int) : String := ⟨intChars n⟩

/-- Lexicographic order on character lists by code point — the order Python
uses to compare strings. -/
def charsLe : List Char → List Char → Bool
  | [], _ => true
  | _ :: _, [] => false
  | x :: xs, y :: ys =>
    if x.toNat < y.toNat then true
    else if y.toNat < x.toNat then false
    else charsLe xs ys

/-- Split a character list at every occurrence of `c`
(Python `str.split(c)`). -/
def splitOnChar (c : Char) : List Char → List (List Char)
  | [] => [[]]
  | x :: xs =>
    if x = c then [] :: splitOnChar c xs
    else
      match splitOnChar c xs with
      | [] => [[x]]
      | p :: ps => (x :: p) :: ps

/-- Remove the longest suffix whose characters satisfy `p`
(Python `str.rstrip`). -/
def dropTrailing (p : Char → Bool) (l : List Char) : List Char :=
  (l.reverse.dropWhile p).reverse

/-- Left-pad with `c` to length at least `n`. -/
def padLeft (c : Char) (n : Nat) (l : List Char) : List Char :=
  List.replicate (n - l.length) c ++ l

/-- Join with a single separator character (Python `c.join(...)`). -/
def joinChar (c : Char) : List (List Char) → List Char
  | [] => []
  | [x] => x
  | x :: y :: ys => x ++ c :: joinChar c (y :: ys)

/-! ## Stable insertion sort keyed by a character-list key

Model of Python `sorted(l, key=k)`: a stable sort; an element is inserted
after all earlier elements whose key is `<=` its own. -/

def insertSorted (k : α → List Char) (x : α) : List α → List α
  | [] => [x]
  | y :: l => if charsLe (k x) (k y) then x :: y :: l
              else y :: insertSorted k x l

def sortByKey (k : α → List Char) : List α → List α
  | [] => []
  | x :: l => insertSorted k x (sortByKey k l)

/-! ## Parsing `Decimal(str)`

Grammar of CPython's `Decimal` constructor on strings (whitespace-trimmed):
optional sign, then either a digit string with an optional fractional part
(at least one digit overall) followed by an optional exponent
`('e'|'E') [sign] digits`, or one of the specials `nan`/`snan`/`inf`/
`infinity` (case-insensitive).  Anything else raises `InvalidOperation`,
which the embedding renders as `none`. -/

def digitsToNat (l : List Char) : Nat :=
  l.foldl (fun acc c => acc * 10 + (c.toNat - 48)) 0

def parseSign : List Char → Int × List Char
  | '+' :: rest => (1, rest)
  | '-' :: rest => (-1, rest)
  | l => (1, l)

/-- Parse an optional exponent suffix; returns the exponent value and
requires the rest of the input to be consumed. -/
def parseExpPart : List Char → Option Int
  | [] => some 0
  | c :: rest =>
    if c = 'e' ∨ c = 'E' then
      let (s, rest') := parseSign rest
      let ds := rest'.takeWhile isAsciiDigit
      let rest'' := rest'.dropWhile isAsciiDigit
      if ds = [] ∨ rest'' ≠ [] then none else some (s * digitsToNat ds)
    else none

def parseNumeric (sign : Int) (l : List Char) : Option PParsed :=
  let ip := l.takeWhile isAsciiDigit
  let rest := l.dropWhile isAsciiDigit
  match rest with
  | '.' :: rest' =>
    let fp := rest'.takeWhile isAsciiDigit
    let rest'' := rest'.dropWhile isAsciiDigit
    if ip = [] ∧ fp = [] then none
    else
      (parseExpPart rest'').map fun e =>
        PParsed.num ⟨sign * digitsToNat (ip ++ fp), e - fp.length⟩
  | _ =>
    if ip = [] then none
    else (parseExpPart rest).map fun e => PParsed.num ⟨sign * digitsToNat ip, e⟩

/-- Model of `Decimal(s)` for a Python string `s`. -/
def parseDecimal (s : String) : Option PParsed :=
  let t := (s.data.dropWhile Char.isWhitespace).reverse.dropWhile Char.isWhitespace |>.reverse
  let (sign, body) := parseSign t
  let low := body.map Char.toLower
  if low = "nan".data ∨ low = "snan".data then some PParsed.nan
  else if low = "inf".data ∨ low = "infinity".data then
    some (if sign = 1 then PParsed.inf else PParsed.ninf)
  else parseNumeric sign body

/-! ## `format_decimal` (src20.py lines 1150-1158)

`format(amt, "f")` on a (normalized, non-integral) decimal renders the
coefficient in fixed-point notation; the source then strips trailing `'0'`s
and a trailing `'.'` and maps the empty string to `"0"`. -/

/-- Characters of `format(d, "f")` for a decimal with negative exponent. -/
def formatFixedChars (d : PyDec) : List Char :=
  if 0 ≤ d.exp then intChars (d.mant * 10 ^ d.exp.toNat)
  else
    let e := (-d.exp).toNat
    let digs := padLeft '0' (e + 1) (natChars d.mant.natAbs)
    let sign : List Char := if d.mant < 0 then ['-'] else []
    sign ++ digs.take (digs.length - e) ++ '.' :: digs.drop (digs.length - e)

/-- Embedding of `format_decimal` (src20.py): normalize, print integers with
no decimal point, otherwise fixed-point with trailing zeros stripped. -/
def format_decimal (amt : PyDec) : String :=
  let a := amt.normalize
  if PyDec.beq a (PyDec.ofInt a.truncInt) then intStr a.truncInt
  else
    let s := dropTrailing (fun c => c = '.') (dropTrailing (fun c => c = '0') (formatFixedChars a))
    if s = [] then "0" else ⟨s⟩

/-! ## `check_format` (src20.py lines 599-705)

The input reaching the numeric loop is a Python dict.  When `check_format`
receives a `str`/`bytes` payload it runs `json.loads` with
`parse_float=parse_no_sci_float` and `parse_int=D`, so JSON number literals
arrive as `Decimal`s (or abort the whole parse); when it receives a dict the
values are whatever upstream produced (strings, ints, floats, Decimals,
None, other).  `PyVal` covers the possible value shapes of a numeric field.
A Python float is represented by the exact decimal value of
`format(value, "f")` (or NaN), which is what the source converts it to. -/

inductive PyVal where
  | vstr (s : String)
  | vint (n : Int)
  | vfloat (d : PParsed)
  | vdec (d : PParsed)
  | vnone
  | vother
deriving DecidableEq, Repr

def uint64Max : PyDec := ⟨(2 : Int) ^ 64 - 1, 0⟩

/-- Final range gate of the numeric loop:
`value.is_nan() or not (D("0") <= value <= uint64_max)` excludes. -/
def rangeGate : PParsed → Option PyDec
  | PParsed.nan => none
  | PParsed.inf => none
  | PParsed.ninf => none
  | PParsed.num d =>
    if PyDec.ble PyDec.zero d ∧ PyDec.ble d uint64Max then some d else none

/-- Characters kept by the pre-p2wsh string cleanup
`"".join(c for c in value if c.isdigit() or c == ".")`.  `isdigit` is
modelled on its ASCII fragment; the payloads considered here are ASCII. -/
def filterDigitsDot (s : String) : String :=
  ⟨s.data.filter fun c => isAsciiDigit c ∨ c = '.'⟩

/-- One numeric-field check of `check_format` (src20.py lines 668-699):
type dispatch, height-gated string parsing, NaN/range gate.  Returns the
accepted value, `none` meaning the whole payload is excluded. -/
def check_format_value (p2wshStart : Nat) (block_index : Nat) (v : PyVal) : Option PyDec :=
  match v with
  | PyVal.vnone => none
  | PyVal.vstr s =>
    let parsed : Option PParsed :=
      if p2wshStart ≤ block_index then
        if s ≠ "" then parseDecimal s else some (PParsed.num PyDec.zero)
      else
        if s ≠ "" then parseDecimal (filterDigitsDot s) else some (PParsed.num PyDec.zero)
    match parsed with
    | none => none
    | some pd => rangeGate pd
  | PyVal.vint n => rangeGate (PParsed.num (PyDec.ofInt n))
  | PyVal.vfloat pd => rangeGate pd
  | PyVal.vdec pd => rangeGate pd
  | PyVal.vother => none

/-- Embedding of `matches_any_pattern` (src20.py lines 556-570): every
character of `text` lies in the configured character set. -/
def matches_any_pattern (text : String) (charSet : List Char) : Bool :=
  text.data.all fun c => c ∈ charSet

/-- The fields of an SRC-20 candidate dict that `check_format` inspects.
`p` is taken as a present string (the source crashes on a missing `p`; the
claims never exercise that).  A field is `some _` exactly when its key is
present in the dict; `tick` values are modelled as strings
(`convert_to_utf8_string` is the identity on the ASCII ticks considered). -/
structure SrcInputDict where
  p : String
  hasOp : Bool := false
  tick : Option String := none
  maxv : Option PyVal := none
  limv : Option PyVal := none
  amtv : Option PyVal := none
  hasDestinations : Bool := false
deriving DecidableEq, Repr

/-- Embedding of `check_format` on an already-materialized dict
(src20.py lines 640-705). `tickSet` is the configured `TICK_PATTERN_SET`
(the `config` module is not under `src/`). -/
def check_format (p2wshStart : Nat) (tickSet : List Char) (d : SrcInputDict)
    (block_index : Nat) : Option SrcInputDict :=
  if strLower d.p = "src-721" then some d
  else if strLower d.p = "src-20" then
    let tick := d.tick.getD ""
    if tick = "" ∨ ¬ matches_any_pattern tick tickSet ∨ tick.length > 5 then none
    else
      let deployKeys := d.hasOp ∧ d.tick.isSome ∧ d.maxv.isSome ∧ d.limv.isSome
      let xferKeys := d.hasOp ∧ d.tick.isSome ∧ d.amtv.isSome
      let bulkKeys := xferKeys ∧ d.hasDestinations
      let chk := fun (v : Option PyVal) =>
        (check_format_value p2wshStart block_index (v.getD PyVal.vnone)).isSome
      if deployKeys ∧ ¬ chk d.maxv then none
      else if deployKeys ∧ ¬ chk d.limv then none
      else if xferKeys ∧ ¬ chk d.amtv then none
      else if xferKeys ∧ ¬ chk d.amtv then none
      else if bulkKeys ∧ ¬ chk d.amtv then none
      else some { d with tick := some tick }
  else none

/-! ### The JSON hook layer of `check_format`

When the payload is text, `json.loads(s, parse_float=parse_no_sci_float,
parse_int=D)` materializes JSON number literals through the hooks before the
numeric loop runs.  `RawNum` is a raw JSON value in a numeric-field
position; a raised `ValueError` (scientific notation) is caught by
`check_format`, which then returns `None`. -/

inductive RawNum where
  | rstr (s : String)
  | rint (n : Int)
  | rfloat (lit : String)
  | rnull
deriving DecidableEq, Repr

/-- Embedding of `parse_no_sci_float` (src20.py lines 619-623). -/
def parse_no_sci_float (lit : String) : Option PyDec :=
  if 'e' ∈ (strLower lit).data then none
  else
    match parseDecimal lit with
    | some (PParsed.num d) => some d
    | _ => none

def hookVal : RawNum → Option PyVal
  | RawNum.rstr s => some (PyVal.vstr s)
  | RawNum.rint n => some (PyVal.vdec (PParsed.num (PyDec.ofInt n)))
  | RawNum.rfloat lit => (parse_no_sci_float lit).map fun d => PyVal.vdec (PParsed.num d)
  | RawNum.rnull => some PyVal.vnone

structure SrcRawDict where
  p : String
  hasOp : Bool := false
  tick : Option String := none
  maxr : Option RawNum := none
  limr : Option RawNum := none
  amtr : Option RawNum := none
  hasDestinations : Bool := false
deriving DecidableEq, Repr

def hookField : Option RawNum → Option (Option PyVal)
  | none => some none
  | some r => (hookVal r).map some

/-- `json.loads` with the two hooks, restricted to the fields `check_format`
reads; `none` models the `ValueError` raised by `parse_no_sci_float`. -/
def json_loads_hooked (rd : SrcRawDict) : Option SrcInputDict := do
  let mv ← hookField rd.maxr
  let lv ← hookField rd.limr
  let av ← hookField rd.amtr
  pure { p := rd.p, hasOp := rd.hasOp, tick := rd.tick, maxv := mv, limv := lv,
         amtv := av, hasDestinations := rd.hasDestinations }

/-- `check_format` on a textual (str/bytes) payload: JSON decoding with the
numeric hooks, then the dict-level checks; a hook error yields `None`. -/
def check_format_json (p2wshStart : Nat) (tickSet : List Char) (rd : SrcRawDict)
    (block_index : Nat) : Option SrcInputDict :=
  (json_loads_hooked rd).bind fun d => check_format p2wshStart tickSet d block_index

/-! ## Base64 decoding (index_core/stamp.py lines 61-121)

The stdlib decoders (`base64.b64decode`, `pybase64.b64decode`, the `base64`
CLI) are external to the repository and appear as function parameters
`bdec`, `bdec2`, `bdec3` (a failed decode is `none`).  Decoded data is a
byte list. -/

/-- Modelled from the spec: `check_valid_base64_string`
(index_core/util.py, not under `src/`) — "validate charset/length
(multiple of 4, RFC-4648 alphabet)". -/
def check_valid_base64_string (s : String) : Bool :=
  s.length % 4 = 0 ∧ s.data.all fun c =>
    ('A' ≤ c ∧ c ≤ 'Z') ∨ ('a' ≤ c ∧ c ≤ 'z') ∨ isAsciiDigit c ∨ c = '+' ∨ c = '/' ∨ c = '='

/-- Embedding of `decode_base64_with_repair` (index_core/stamp.py lines
109-121): pad with `'='` to a multiple of four, then decode with
`base64.b64decode` (`bdec`). -/
def decode_base64_with_repair (bdec : String → Option (List Nat)) (base64_string : String) :
    Option (List Nat) :=
  let missing_padding := base64_string.length % 4
  let padded := if missing_padding ≠ 0 then
      base64_string ++ ⟨List.replicate (4 - missing_padding) '='⟩
    else base64_string
  bdec padded

/-- Embedding of `decode_base64` (index_core/stamp.py lines 61-107).
`p2wshStart` and `stopRepair` are `CP_P2WSH_FEAT_BLOCK_START` and
`STOP_BASE64_REPAIR` from the `config` module (not under `src/`).
Returns `(image_data, is_valid_base64)`. -/
def decode_base64 (bdec bdec2 bdec3 : String → Option (List Nat))
    (p2wshStart stopRepair : Nat) (base64_string : String) (block_index : Nat) :
    Option (List Nat) × Option Bool :=
  if p2wshStart ≤ block_index ∧ ¬ check_valid_base64_string base64_string then
    (none, none)
  else if block_index ≤ stopRepair then
    match decode_base64_with_repair bdec base64_string with
    | some image_data => (some image_data, some true)
    | none => (none, none)
  else
    match bdec base64_string with
    | some image_data => (some image_data, some true)
    | none =>
      match bdec2 base64_string with
      | some image_data => (some image_data, some true)
      | none =>
        match bdec3 base64_string with
        | some image_data => (some image_data, some true)
        | none => (none, none)

/-! ## Base62 CPID derivation (src/stamp.py lines 64-88, index_core/stamp.py
lines 44-58)

`hashlib.sha256` is stdlib; it appears as a parameter `sha : String →
List Nat` producing the 32-byte digest.  `int.from_bytes(_, "big")` and the
base62 loop are embedded directly. -/

def base62Alphabet : List Char :=
  "0123456789abcdefghijklmnopqrstuvwxyzABCDEFGHIJKLMNOPQRSTUVWXYZ".data

/-- Fuel-driven divmod loop of `base62_encode`, producing the digits least
significant first (the source appends then reverses). -/
def base62Aux : Nat → Nat → List Char
  | 0, _ => []
  | fuel + 1, num =>
    if num = 0 then []
    else (base62Alphabet.getD (num % 62) '0') :: base62Aux fuel (num / 62)

/-- Embedding of `base62_encode` (src/stamp.py lines 64-73). -/
def base62_encode (num : Nat) : String :=
  if num = 0 then "0" else ⟨(base62Aux (num + 1) num).reverse⟩

/-- Value of a base62 string read most-significant digit first — the
big-endian interpretation named by the claim. -/
def base62Value (s : String) : Nat :=
  s.data.foldl (fun acc c => acc * 62 + (base62Alphabet.indexOf c)) 0

/-- `int.from_bytes(hash_bytes, byteorder="big")`. -/
def bytesBE (bs : List Nat) : Nat := bs.foldl (fun acc b => acc * 256 + b) 0

/-- Embedding of `create_base62_hash` (src/stamp.py lines 76-83); `none`
models the `ValueError` on an out-of-range length. -/
def create_base62_hash (sha : String → List Nat) (str1 str2 : String) (length : Nat) :
    Option String :=
  if ¬ (12 ≤ length ∧ length ≤ 20) then none
  else
    let combined_str := str1 ++ "|" ++ str2
    let hash_int := bytesBE (sha combined_str)
    some ((base62_encode hash_int).take length)

/-- Embedding of `get_cpid` (index_core/stamp.py lines 44-58): the upstream
cpid (if any) together with the derived base62 digest of
`SHA-256(tx_hash + "|" + str(block_index))`. -/
def get_cpid (sha : String → List Nat) (cpid : Option String) (block_index : Nat)
    (tx_hash : String) : Option String × Option String :=
  (cpid, create_base62_hash sha tx_hash (intStr block_index) 20)

/-- Modelled from the spec: the caller of `get_cpid`
(`StampData.update_cpid_and_stamp_hash`, index_core/models.py, not under
`src/`) — "If upstream provided a cpid, use it; otherwise derive a
20-character base62 digest". -/
def resolved_cpid (sha : String → List Nat) (cpid : Option String) (block_index : Nat)
    (tx_hash : String) : Option String :=
  match get_cpid sha cpid block_index tx_hash with
  | (some c, _) => some c
  | (none, hsh) => hsh

/-! ## Classification and numbering tail of `parse_stamp`
(index_core/stamp.py lines 415-452)

`StampData` lives in `index_core/models.py` (not under `src/`); its fields
referenced here are carried in `StampParseInput`, with `is_btc_stamp` and
`is_cursed` starting as Python `None` — modelled from the spec's stamp
record ("is_btc_stamp (bool), is_cursed (bool)", unset at creation).  The
feature predicates `valid_src20` / `valid_src721` and the outcome of
`check_format` are inputs.  `get_next_stamp_number` (index_core/database.py,
not under `src/`) is modelled from the spec as a counter lookup
`counters : String → Int` keyed by `"stamp"` / `"cursed"`. -/

structure StampParseInput where
  ident : String
  asset_longname : Option String := none
  cpid : Option String := none
  is_op_return : Bool := false
  file_suffix : Option String := none
  validSrc20 : Bool := false
  checkFormatOk : Bool := false
  validSrc721 : Bool := false
deriving DecidableEq, Repr

structure StampParseOut where
  is_btc_stamp : Option Nat
  is_cursed : Option Nat
  cpid : Option String
  stamp : Option Int
deriving DecidableEq, Repr

/-- Python truthiness of the `is_btc_stamp` / `is_cursed` fields
(`1` is truthy, `None` falsy). -/
def flagTruthy : Option Nat → Bool
  | some n => n ≠ 0
  | none => false

/-- Python truthiness of an optional string (empty string falsy). -/
def strTruthy : Option String → Bool
  | some s => s ≠ ""
  | none => false

/-- Classification and numbering tail of `parse_stamp` (index_core/stamp.py
lines 421-452); `none` is the early `return (None,) * 4` when the SRC-20
branch rejects the payload. -/
def parse_stamp_classify (invalidSuffixes : List String) (counters : String → Int)
    (inp : StampParseInput) : Option StampParseOut :=
  -- SRC-20 branch: `check_format` failure drops the transaction
  if inp.validSrc20 ∧ ¬ inp.checkFormatOk then none
  else
    let btc0 : Option Nat := if inp.validSrc20 then some 1 else none
    let btc1 : Option Nat := if inp.validSrc721 then some 1 else btc0
    let cursed0 : Option Nat := none
    let suffixBad : Bool := match inp.file_suffix with
      | some sfx => invalidSuffixes.contains sfx
      | none => false
    let startsA : Bool := match inp.cpid with
      | some c => strStartsWith c "A"
      | none => false
    -- the btc-stamp / cursed classification chain
    let (btc2, cursed2, cpid2) :=
      if inp.ident ≠ "UNKNOWN" ∧ inp.asset_longname = none ∧ strTruthy inp.cpid ∧
          startsA ∧ ¬ inp.is_op_return ∧ ¬ suffixBad then
        (some 1, cursed0, inp.cpid)
      else if inp.asset_longname ≠ none then
        (none, some 1, inp.asset_longname)
      else if strTruthy inp.cpid ∧ (suffixBad ∨ ¬ startsA ∨ inp.is_op_return) then
        (none, some 1, inp.cpid)
      else (btc1, cursed0, inp.cpid)
    -- numbering
    let stamp : Option Int :=
      if flagTruthy btc2 then some (counters "stamp")
      else if flagTruthy cursed2 then some (counters "cursed")
      else none
    some { is_btc_stamp := btc2, is_cursed := cursed2, cpid := cpid2, stamp := stamp }

/-! ## The SRC-20 processor (src20.py lines 120-490)

One record per `src20_dict` as it leaves `Src20Validator.process_values`:
numeric fields are decimals (`max`/`lim` quantized by the validator), `op`
and `p` are uppercased, `tick` lowercased.  `status` holds the status code
set by `set_status_and_log` (the source stores the code followed by a
formatted message; only the code is consensus-relevant and only the code is
modelled).  `valid` is the dict's `valid` field (`1` iff set).  The
processor's separate `is_valid` flag is `true` exactly on the records whose
`valid` field gets set, so it is not carried separately. -/

structure SrcOp where
  op : String
  tick : String := ""
  tick_hash : String := ""
  creator : String := ""
  destination : String := ""
  amt : Option PyDec := none
  maxv : Option PyDec := none
  limv : Option PyDec := none
  decv : Option Nat := none
  status : Option String := none
  valid : Bool := false
  total_minted : Option PyDec := none
  total_balance_creator : Option PyDec := none
  total_balance_destination : Option PyDec := none
deriving DecidableEq, Repr

/-- Snapshot of the persistent tables consulted by the processor:
the `src20_valid` DEPLOY row per tick (`(lim, max, dec)`), the cumulative
minted total per tick, and the `balances` row amount per
(tick, tick_hash, address). -/
structure DbState where
  deployRow : String → Option (Option PyDec × Option PyDec × Option Nat)
  totalMinted : String → PyDec
  balanceRow : String → String → String → Option PyDec

/-- Python truthiness of an optional decimal (`None` and `Decimal(0)`
are falsy). -/
def optTruthy : Option PyDec → Bool
  | none => false
  | some d => d.truthy

/-- Embedding of `set_status_and_log` (src20.py lines 213-223), restricted
to the status code. -/
def set_status_and_log (o : SrcOp) (code : String) : SrcOp :=
  { o with status := some code }

/-- Modelled from the spec: `get_src20_deploy` (index_core/database.py, not
under `src/`) — "Lookup the DEPLOY record for the tick (first searching
shadow list for same-block DEPLOY, then persistent store)"; returns the
deploy's `(lim, max, dec)`. -/
def get_src20_deploy (deployRow : String → Option (Option PyDec × Option PyDec × Option Nat))
    (shadow : List SrcOp) (tick : String) : Option PyDec × Option PyDec × Option Nat :=
  match shadow.reverse.find? (fun o => o.valid ∧ strUpper o.op = "DEPLOY" ∧ o.tick = tick) with
  | some o => (o.limv, o.maxv, o.decv)
  | none =>
    match deployRow tick with
    | some r => r
    | none => (none, none, none)

/-- Embedding of `get_running_mint_total` (src20.py lines 708-729): the most
recent in-block `total_minted` for the tick, falling back to the persistent
total when absent or zero. -/
def get_running_mint_total (totalMinted : String → PyDec) (shadow : List SrcOp)
    (tick : String) : PyDec :=
  match shadow.reverse.find? (fun i => i.tick = tick ∧ i.op = "MINT" ∧ i.total_minted.isSome) with
  | some i =>
    let tm := i.total_minted.getD PyDec.zero
    if tm.mant = 0 then totalMinted tick else tm
  | none => totalMinted tick

/-- Inner loop of `get_running_user_balances` over one valid prior record
(src20.py lines 761-790).  Python's `for address in addresses` advances an
internal index while `addresses.remove(address)` shifts the list, so a
removal skips the following element for this record; the index/erase
recursion reproduces that exactly.  `fuel` only bounds the recursion and is
chosen large enough at the call site. -/
def balances_scan_one (prior : SrcOp) (tick th : String) :
    Nat → Nat → List String → List (String × PyDec) → List String × List (String × PyDec)
  | 0, _, addrs, acc => (addrs, acc)
  | fuel + 1, i, addrs, acc =>
    if h : i < addrs.length then
      let a := addrs.get ⟨i, h⟩
      let tb : Option PyDec :=
        if prior.creator = a ∧ prior.tick = tick ∧ prior.tick_hash = th ∧
            prior.total_balance_creator.isSome then
          prior.total_balance_creator
        else if prior.destination = a ∧ prior.tick = tick ∧ prior.tick_hash = th ∧
            prior.total_balance_destination.isSome then
          prior.total_balance_destination
        else none
      match tb with
      | some b => balances_scan_one prior tick th fuel (i + 1) (addrs.eraseIdx i) (acc ++ [(a, b)])
      | none => balances_scan_one prior tick th fuel (i + 1) addrs acc
    else (addrs, acc)

/-- Outer loop of `get_running_user_balances` over the reversed shadow list,
visiting only records with `valid == 1`. -/
def balances_scan (tick th : String) :
    List SrcOp → List String → List (String × PyDec) → List String × List (String × PyDec)
  | [], addrs, acc => (addrs, acc)
  | p :: ps, addrs, acc =>
    if p.valid then
      let r := balances_scan_one p tick th (addrs.length + 1) 0 addrs acc
      balances_scan tick th ps r.1 r.2
    else balances_scan tick th ps addrs acc

/-- Embedding of `get_running_user_balances` (src20.py lines 732-822):
shadow-list scan first, then the balances table for the remaining
addresses (`get_total_user_balance_from_balances_db` reduces to the row
amount or 0).  `none` models the raised exceptions (duplicate addresses,
negative stored balance). -/
def get_running_user_balances (balanceRow : String → String → String → Option PyDec)
    (shadow : List SrcOp) (tick th : String) (addresses : List String) :
    Option (List (String × PyDec)) :=
  if ¬ addresses.Nodup then none
  else
    let scanned :=
      if shadow.any (fun item => item.tick = tick) then
        balances_scan tick th shadow.reverse addresses []
      else (addresses, [])
    scanned.1.foldl
      (fun acc? a =>
        acc?.bind fun acc =>
          let total_balance := (balanceRow tick th a).getD PyDec.zero
          if total_balance.mant < 0 then none else some (acc ++ [(a, total_balance)]))
      (some scanned.2)

/-- Embedding of `create_running_user_balance_dict` (src20.py lines
203-211) followed by `dict.get(address, 0)`: the scan produces at most one
entry per address, so the first match is the dict entry. -/
def balance_lookup (lst : List (String × PyDec)) (a : String) : Option PyDec :=
  (lst.find? fun p => p.1 = a).map Prod.snd

/-- Embedding of `handle_deploy` (src20.py lines 225-248); the dispatcher
guarantees the operation is `DEPLOY`.  The metadata upsert is a database
side effect outside the consensus state and is not modelled. -/
def handle_deploy (deploy_lim deploy_max : Option PyDec) (o : SrcOp) : SrcOp :=
  if ¬ optTruthy deploy_lim ∧ ¬ optTruthy deploy_max then
    let o' := if o.decv = none then { o with decv := some 18 } else o
    { o' with valid := true }
  else set_status_and_log o "DE"

/-- Embedding of `handle_mint` (src20.py lines 267-320) together with the
`MINT` branch of `update_valid_src20_list` (lines 179-194, the
`TOTAL_MINTED_CACHE` write being a cache side effect) and
`normalize_and_validate_amt` (lines 145-156). -/
def handle_mint (db : DbState) (shadow : List SrcOp)
    (deploy_lim deploy_max : Option PyDec) (ddec : Option Nat) (o : SrcOp) : Option SrcOp :=
  let dlim : PyDec :=
    if optTruthy deploy_lim ∧ optTruthy deploy_max then
      PyDec.minD (deploy_lim.getD PyDec.zero) (deploy_max.getD PyDec.zero)
    else PyDec.zero
  let total_minted := get_running_mint_total db.totalMinted shadow o.tick
  let mint_available : PyDec :=
    if optTruthy deploy_max then (deploy_max.getD PyDec.zero).sub total_minted else PyDec.zero
  let omCond : Bool :=
    if optTruthy deploy_max then PyDec.ble (deploy_max.getD PyDec.zero) total_minted else false
  if omCond then some (set_status_and_log o "OM")
  else
    let a0 := o.amt.getD PyDec.zero
    let s1 := if PyDec.blt mint_available a0 then (set_status_and_log o "OMA", mint_available)
              else (o, a0)
    let s2 := if PyDec.blt dlim s1.2 then (set_status_and_log s1.1 "ODL", dlim) else s1
    let o2 := { s2.1 with amt := some s2.2 }
    match get_running_user_balances db.balanceRow shadow o.tick o.tick_hash [o.destination] with
    | none => none
    | some lst =>
      let running_user_balance := match lst with
        | [] => PyDec.zero
        | b :: _ => b.2
      let namt := s2.2.normalize
      let d : Nat := ddec.getD 18
      if (d : Int) < namt.decimalLength then some (set_status_and_log o2 "ID")
      else some { o2 with amt := some namt, decv := some d,
                          total_minted := some (total_minted.add namt),
                          total_balance_destination := some (running_user_balance.add namt),
                          valid := true }

/-- Embedding of `handle_transfer` (src20.py lines 322-364) together with
the `TRANSFER` branch of `update_valid_src20_list` (lines 165-177). -/
def handle_transfer (db : DbState) (shadow : List SrcOp) (ddec : Option Nat)
    (o : SrcOp) : Option SrcOp :=
  let addresses := if o.creator = o.destination then [o.creator] else [o.creator, o.destination]
  match get_running_user_balances db.balanceRow shadow o.tick o.tick_hash addresses with
  | none => none
  | some lst =>
    let bc := (balance_lookup lst o.creator).getD PyDec.zero
    let bd := (balance_lookup lst o.destination).getD PyDec.zero
    let a0 := o.amt.getD PyDec.zero
    if PyDec.blt bc a0 then some (set_status_and_log o "BB")
    else
      let namt := a0.normalize
      let d : Nat := ddec.getD 18
      if (d : Int) < namt.decimalLength then some (set_status_and_log o "ID")
      else some { o with amt := some namt, decv := some d,
                         total_balance_creator := some (bc.sub namt),
                         total_balance_destination := some (bd.add namt),
                         valid := true }

/-- Python truthiness test of `self.src20_dict.get("amt")` in the
dispatcher: absent or zero decimals are falsy. -/
def amtFalsy (o : SrcOp) : Bool :=
  match o.amt with
  | none => true
  | some d => d.mant = 0

/-- Embedding of `validate_and_process_operation` (src20.py lines 447-468):
`NA`/`ND` gates, deploy lookup, operation dispatch.  `none` models an
exception escaping a handler. -/
def validate_and_process_operation (db : DbState) (shadow : List SrcOp) (o : SrcOp) :
    Option SrcOp :=
  let operation := strUpper o.op
  if (operation = "TRANSFER" ∨ operation = "MINT") ∧ amtFalsy o then
    some (set_status_and_log o "NA")
  else
    let dep := get_src20_deploy db.deployRow shadow o.tick
    if ¬ optTruthy dep.1 ∧ ¬ optTruthy dep.2.1 ∧ (operation = "TRANSFER" ∨ operation = "MINT") then
      some (set_status_and_log o "ND")
    else if operation = "DEPLOY" then some (handle_deploy dep.1 dep.2.1 o)
    else if operation = "MINT" then handle_mint db shadow dep.1 dep.2.1 dep.2.2 o
    else if operation = "TRANSFER" then handle_transfer db shadow dep.2.2 o
    else some (set_status_and_log o "UO")

/-- Modelled from the spec: the per-block driver (blocks.py, not under
`src/`) processes the validated operations in order and appends every
processed record to the shadow list — "Every processed record is appended
to the shadow list (valid or not)". -/
def process_block (db : DbState) (ops : List SrcOp) : Option (List SrcOp) :=
  ops.foldl
    (fun acc? o => acc?.bind fun shadow =>
      (validate_and_process_operation db shadow o).map fun r => shadow ++ [r])
    (some [])

/-- One step of the per-block driver fold (named for the proofs). -/
def process_step (db : DbState) (acc? : Option (List SrcOp)) (o : SrcOp) :
    Option (List SrcOp) :=
  acc?.bind fun shadow => (validate_and_process_operation db shadow o).map fun r => shadow ++ [r]

/-- Destination running balance read by `handle_mint` (the head of the
single-address lookup, defaulting to zero). -/
def mint_dest_balance (db : DbState) (shadow : List SrcOp) (o : SrcOp) : PyDec :=
  match get_running_user_balances db.balanceRow shadow o.tick o.tick_hash [o.destination] with
  | some (b :: _) => b.2
  | _ => PyDec.zero

/-- Creator and destination running balances read by `handle_transfer`
(shadow list first, then the persistent store). -/
def transfer_running_balances (db : DbState) (shadow : List SrcOp) (o : SrcOp) :
    PyDec × PyDec :=
  let addresses := if o.creator = o.destination then [o.creator] else [o.creator, o.destination]
  match get_running_user_balances db.balanceRow shadow o.tick o.tick_hash addresses with
  | some lst =>
    ((balance_lookup lst o.creator).getD PyDec.zero, (balance_lookup lst o.destination).getD PyDec.zero)
  | none => (PyDec.zero, PyDec.zero)

/-! ## Balance fold and canonical ledger string
(src20.py lines 983-1158)

`update_src20_balances` folds the block's valid effects into a list of
per-(tick, tick_hash, address) credit/debit rows (first occurrence appends,
later ones update in place); `update_balance_table` attaches `net_change`
and the prior stored amount `original_amt` (the SQL upsert itself is a side
effect); `process_balance_updates` renders and sorts the canonical
string. -/

structure BRow where
  tick : String
  tick_hash : String
  address : String
  credit : PyDec := PyDec.zero
  debit : PyDec := PyDec.zero
  net_change : PyDec := PyDec.zero
  original_amt : PyDec := PyDec.zero
deriving DecidableEq, Repr

/-- Find-or-append credit accumulation of `update_src20_balances`
(the `next(...)`/`append` pattern on `balance_updates`). -/
def creditTo (t th a : String) (amt : PyDec) : List BRow → List BRow
  | [] => [{ tick := t, tick_hash := th, address := a, credit := amt, debit := PyDec.zero }]
  | r :: rest =>
    if r.tick = t ∧ r.tick_hash = th ∧ r.address = a then
      { r with credit := r.credit.add amt } :: rest
    else r :: creditTo t th a amt rest

/-- Find-or-append debit accumulation of `update_src20_balances`. -/
def debitTo (t th a : String) (amt : PyDec) : List BRow → List BRow
  | [] => [{ tick := t, tick_hash := th, address := a, credit := PyDec.zero, debit := amt }]
  | r :: rest =>
    if r.tick = t ∧ r.tick_hash = th ∧ r.address = a then
      { r with debit := r.debit.add amt } :: rest
    else r :: debitTo t th a amt rest

/-- One step of the `update_src20_balances` loop: a valid `MINT` credits the
destination; a valid `TRANSFER` debits the creator, then credits the
destination; everything else is skipped. -/
def balance_step (rows : List BRow) (o : SrcOp) : List BRow :=
  if o.valid ∧ o.op = "MINT" then
    creditTo o.tick o.tick_hash o.destination (o.amt.getD PyDec.zero) rows
  else if o.valid ∧ o.op = "TRANSFER" then
    creditTo o.tick o.tick_hash o.destination (o.amt.getD PyDec.zero)
      (debitTo o.tick o.tick_hash o.creator (o.amt.getD PyDec.zero) rows)
  else rows

/-- Embedding of `update_src20_balances` (src20.py lines 983-1067),
restricted to its pure fold (the call into `update_balance_table` is split
out as in the claims). -/
def update_src20_balances (processed_src20_in_block : List SrcOp) : List BRow :=
  processed_src20_in_block.foldl balance_step []

/-- Per-row bookkeeping of `update_balance_table` (src20.py lines
1070-1113): attach `net_change = credit - debit` and the stored
`original_amt` looked up by `id = tick + "_" + address`; `storedAmt` is the
`balances` table snapshot (the SQL upsert itself is a side effect). -/
def table_row (storedAmt : String → Option PyDec) (r : BRow) : BRow :=
  { r with net_change := r.credit.sub r.debit,
           original_amt := (storedAmt (r.tick ++ "_" ++ r.address)).getD PyDec.zero }

def update_balance_table (storedAmt : String → Option PyDec) (rows : List BRow) : List BRow :=
  rows.map (table_row storedAmt)

/-- Ledger entry of one balance row:
`f"{tick},{creator},{amt_str}"` with `amt = net_change + original_amt`
normalized and formatted; ticks containing a backslash go through
`decode_unicode_escapes` (index_core/util.py, not under `src/` — taken as
the parameter `decode`). -/
def ledger_entry (decode : String → String) (r : BRow) : List Char :=
  let tick := if '\\' ∈ r.tick.data then decode r.tick else r.tick
  let amt := ((r.net_change.add r.original_amt).normalize)
  tick.data ++ ',' :: r.address.data ++ ',' :: (format_decimal amt).data

/-- Sort key used by `process_balance_updates`:
`entry.split(",")[0] + "_" + entry.split(",")[1]`. -/
def ledger_sort_key (entry : List Char) : List Char :=
  (splitOnChar ',' entry).getD 0 [] ++ '_' :: (splitOnChar ',' entry).getD 1 []

/-- Embedding of `process_balance_updates` (src20.py lines 1116-1147):
render one entry per mutated row, sort by the split key, join with `;`. -/
def process_balance_updates (decode : String → String) (balance_updates : List BRow) :
    String :=
  let valid_src20_list := balance_updates.map (ledger_entry decode)
  ⟨joinChar ';' (sortByKey ledger_sort_key valid_src20_list)⟩

/-! ## Helper predicates used by the claim statements -/

/-- A record counted as an accepted DEPLOY for `tick`. -/
def isValidDeployFor (tick : String) (o : SrcOp) : Bool :=
  o.valid ∧ strUpper o.op = "DEPLOY" ∧ o.tick = tick

/-- Number of accepted DEPLOY records for `tick` in a shadow list. -/
def valid_deploy_count (shadow : List SrcOp) (tick : String) : Nat :=
  (shadow.filter (isValidDeployFor tick)).length

/-- A record counted as an accepted DEPLOY for `tick` whose `max` or `lim`
is truthy (nonzero and present). -/
def isTruthyDeployFor (tick : String) (o : SrcOp) : Bool :=
  isValidDeployFor tick o ∧ (optTruthy o.maxv ∨ optTruthy o.limv)

/-- Number of accepted DEPLOY records for `tick` with truthy `max` or `lim`. -/
def truthy_deploy_count (shadow : List SrcOp) (tick : String) : Nat :=
  (shadow.filter (isTruthyDeployFor tick)).length

/-- The most recent accepted DEPLOY for `tick` in a shadow list — the
record `get_src20_deploy` reads before falling back to the persistent
store. -/
def latestValidDeploy (shadow : List SrcOp) (tick : String) : Option SrcOp :=
  shadow.reverse.find? (fun o => o.valid ∧ strUpper o.op = "DEPLOY" ∧ o.tick = tick)

/-- The persistent store holds a DEPLOY row for `tick` with truthy `max` or
`lim`. -/
def db_has_truthy_deploy (db : DbState) (tick : String) : Bool :=
  match db.deployRow tick with
  | some r => optTruthy r.1 ∨ optTruthy r.2.1
  | none => false

/-- The spec's canonical sort key of a balance row: `tick ∥ "_" ∥ address`. -/
def spec_ledger_key (r : BRow) : List Char :=
  r.tick.data ++ '_' :: r.address.data

/-- Nonnegative balances-table snapshot (the spec's invariant "balance ≥ 0
at all times after commit"); a negative stored row would make
`get_running_user_balances` raise. -/
def nonnegBalances (balanceRow : String → String → String → Option PyDec) : Prop :=
  ∀ t th a d, balanceRow t th a = some d → 0 ≤ d.mant

/-! ## Concrete stores and operations used in the examples -/

/-- Persistent store with one DEPLOY row for tick `"kevin"`
(`lim 100`, `max 1000`, `dec 18`), no minted total, and a stored balance of
10 at every address. -/
def dbT : DbState :=
  ⟨fun t => if t = "kevin" then some (some ⟨100, 0⟩, some ⟨1000, 0⟩, some 18) else none,
   fun _ => PyDec.zero,
   fun _ _ _ => some ⟨10, 0⟩⟩

/-- Same store with the deploy's `dec` set to 0. -/
def dbT0 : DbState :=
  ⟨fun t => if t = "kevin" then some (some ⟨100, 0⟩, some ⟨1000, 0⟩, some 0) else none,
   fun _ => PyDec.zero,
   fun _ _ _ => some ⟨10, 0⟩⟩

/-- A TRANSFER of 5 from alice to bob on tick `"kevin"`. -/
def opT : SrcOp :=
  { op := "TRANSFER", tick := "kevin", tick_hash := "h", creator := "alice",
    destination := "bob", amt := some ⟨5, 0⟩ }

/-- A TRANSFER of 0.5 from alice to bob on tick `"kevin"`. -/
def opT0 : SrcOp :=
  { op := "TRANSFER", tick := "kevin", tick_hash := "h", creator := "alice",
    destination := "bob", amt := some ⟨5, -1⟩ }

/-- Store for the MINT example: the `"kevin"` deploy row plus a persistent
minted total of 60. -/
def dbM : DbState :=
  ⟨fun t => if t = "kevin" then some (some ⟨100, 0⟩, some ⟨1000, 0⟩, some 18) else none,
   fun t => if t = "kevin" then ⟨60, 0⟩ else PyDec.zero,
   fun _ _ _ => some ⟨10, 0⟩⟩

/-- Same store with the deploy's `dec` set to 0. -/
def dbM0 : DbState :=
  ⟨fun t => if t = "kevin" then some (some ⟨100, 0⟩, some ⟨1000, 0⟩, some 0) else none,
   fun t => if t = "kevin" then ⟨60, 0⟩ else PyDec.zero,
   fun _ _ _ => some ⟨10, 0⟩⟩

/-- A MINT of 950 to bob on tick `"kevin"`. -/
def opM : SrcOp :=
  { op := "MINT", tick := "kevin", tick_hash := "h", creator := "alice",
    destination := "bob", amt := some ⟨950, 0⟩ }

/-- A MINT of 0.5 to bob on tick `"kevin"`. -/
def opM0 : SrcOp :=
  { op := "MINT", tick := "kevin", tick_hash := "h", creator := "alice",
    destination := "bob", amt := some ⟨5, -1⟩ }

/-- An empty persistent store. -/
def dbE : DbState := ⟨fun _ => none, fun _ => PyDec.zero, fun _ _ _ => none⟩

/-- A DEPLOY of tick `"zero"` carrying `max = 0` and `lim = 0`. -/
def opDz : SrcOp :=
  { op := "DEPLOY", tick := "zero", tick_hash := "h", creator := "alice",
    maxv := some ⟨0, 0⟩, limv := some ⟨0, 0⟩, decv := some 18 }

/-- A DEPLOY of tick `"dogs"` carrying `max = 1000` and `lim = 100`. -/
def opD1 : SrcOp :=
  { op := "DEPLOY", tick := "dogs", tick_hash := "h", creator := "alice",
    maxv := some ⟨1000, 0⟩, limv := some ⟨100, 0⟩, decv := some 18 }

/-! ## Definitions used by the lemma development -/

/-- Sortedness of a list with respect to the Python sort key. -/
def SortedBy (k : α → List Char) (l : List α) : Prop :=
  l.Pairwise fun a b => charsLe (k a) (k b) = true

/-- Grouping key of a balance row. -/
def rowKey (r : BRow) : String × String × String := (r.tick, r.tick_hash, r.address)

/-- First row with the given key (the `next(...)` lookup of
`update_src20_balances`). -/
def findRow (rows : List BRow) (k : String × String × String) : Option BRow :=
  rows.find? fun r => rowKey r = k

/-- Net credited value accumulated for a key. -/
def netRat (rows : List BRow) (k : String × String × String) : ℚ :=
  match findRow rows k with
  | some r => r.credit.toRat - r.debit.toRat
  | none => 0

/-- Rational contribution of one operation to a key's net balance change. -/
def contribRat (o : SrcOp) (k : String × String × String) : ℚ :=
  (if o.valid ∧ o.op = "MINT" ∧ k = (o.tick, o.tick_hash, o.destination) then
    (o.amt.getD PyDec.zero).toRat else 0) +
  (if o.valid ∧ o.op = "TRANSFER" ∧ k = (o.tick, o.tick_hash, o.creator) then
    -(o.amt.getD PyDec.zero).toRat else 0) +
  (if o.valid ∧ o.op = "TRANSFER" ∧ k = (o.tick, o.tick_hash, o.destination) then
    (o.amt.getD PyDec.zero).toRat else 0)

/-- The operation touches the key (creates or updates its row). -/
def touches (o : SrcOp) (k : String × String × String) : Prop :=
  (o.valid = true ∧ o.op = "MINT" ∧ k = (o.tick, o.tick_hash, o.destination)) ∨
  (o.valid = true ∧ o.op = "TRANSFER" ∧
    (k = (o.tick, o.tick_hash, o.creator) ∨ k = (o.tick, o.tick_hash, o.destination)))

/-- Keys of a row list are pairwise distinct (invariant of the fold). -/
def keysNodup (rows : List BRow) : Prop := (rows.map rowKey).Nodup

/-! # Lemmas and claim theorems -/

/-! ## Decimal value lemmas -/

theorem zpow_toNat_mul_zpow_min (e f : ℤ) :
    ((10 : ℚ) ^ (e - min e f).toNat) * 10 ^ (min e f) = 10 ^ e := by
  have h10 : (10 : ℚ) ≠ 0 := by norm_num
  have hnn : (0 : ℤ) ≤ e - min e f := by omega
  rw [← zpow_natCast (10 : ℚ) (e - min e f).toNat, Int.toNat_of_nonneg hnn,
    ← zpow_add₀ h10]
  congr 1
  omega

theorem alignL_toRat (a b : PyDec) :
    ((PyDec.alignL a b : ℤ) : ℚ) * 10 ^ (min a.exp b.exp) = a.toRat := by
  unfold PyDec.alignL PyDec.toRat
  push_cast
  rw [mul_assoc, zpow_toNat_mul_zpow_min]

theorem alignR_toRat (a b : PyDec) :
    ((PyDec.alignR a b : ℤ) : ℚ) * 10 ^ (min a.exp b.exp) = b.toRat := by
  unfold PyDec.alignR PyDec.toRat
  push_cast
  rw [mul_assoc]
  congr 1
  have h10 : (10 : ℚ) ≠ 0 := by norm_num
  have hnn : (0 : ℤ) ≤ b.exp - min a.exp b.exp := by omega
  rw [← zpow_natCast (10 : ℚ) (b.exp - min a.exp b.exp).toNat, Int.toNat_of_nonneg hnn,
    ← zpow_add₀ h10]
  congr 1
  omega

theorem toRat_add (a b : PyDec) : (a.add b).toRat = a.toRat + b.toRat := by
  unfold PyDec.add
  rw [← alignL_toRat a b, ← alignR_toRat a b]
  unfold PyDec.toRat
  push_cast
  ring

theorem toRat_sub (a b : PyDec) : (a.sub b).toRat = a.toRat - b.toRat := by
  unfold PyDec.sub
  rw [← alignL_toRat a b, ← alignR_toRat a b]
  unfold PyDec.toRat
  push_cast
  ring

theorem zpow10_pos (e : ℤ) : (0 : ℚ) < 10 ^ e :=
  zpow_pos (by norm_num) e

theorem ble_iff (a b : PyDec) : PyDec.ble a b = true ↔ a.toRat ≤ b.toRat := by
  unfold PyDec.ble
  rw [← alignL_toRat a b, ← alignR_toRat a b]
  rw [mul_le_mul_right (zpow10_pos _)]
  simp [Int.cast_le]

theorem blt_iff (a b : PyDec) : PyDec.blt a b = true ↔ a.toRat < b.toRat := by
  unfold PyDec.blt
  rw [← alignL_toRat a b, ← alignR_toRat a b]
  rw [mul_lt_mul_right (zpow10_pos _)]
  simp [Int.cast_lt]

theorem beq_iff (a b : PyDec) : PyDec.beq a b = true ↔ a.toRat = b.toRat := by
  unfold PyDec.beq
  rw [← alignL_toRat a b, ← alignR_toRat a b]
  rw [mul_left_inj' (ne_of_gt (zpow10_pos _))]
  simp [Int.cast_inj]

theorem toRat_eq_zero_iff (d : PyDec) : d.toRat = 0 ↔ d.mant = 0 := by
  unfold PyDec.toRat
  constructor
  · intro h
    rcases mul_eq_zero.1 h with h' | h'
    · exact_mod_cast h'
    · exact absurd h' (ne_of_gt (zpow10_pos _))
  · intro h
    simp [h]

theorem normAux_spec : ∀ (fuel : Nat) (m e : ℤ), m ≠ 0 → m.natAbs ≤ fuel →
    (PyDec.normAux fuel m e).mant ≠ 0 ∧ ¬ (10 : ℤ) ∣ (PyDec.normAux fuel m e).mant ∧
      (PyDec.normAux fuel m e).toRat = PyDec.toRat ⟨m, e⟩ := by
  intro fuel
  induction fuel with
  | zero =>
    intro m e hm hle
    omega
  | succ fuel ih =>
    intro m e hm hle
    unfold PyDec.normAux
    by_cases hdvd : m % 10 = 0
    · have hd : (10 : ℤ) ∣ m := Int.dvd_of_emod_eq_zero hdvd
      obtain ⟨k, hk⟩ := hd
      have hk0 : k ≠ 0 := by rintro rfl; simp at hk; omega
      have hdiv : m / 10 = k := by rw [hk]; exact Int.mul_ediv_cancel_left k (by norm_num)
      have habs : k.natAbs ≤ fuel := by
        have h1 : m.natAbs = 10 * k.natAbs := by rw [hk, Int.natAbs_mul]; rfl
        omega
      have hrec := ih k (e + 1) hk0 habs
      rw [if_pos (⟨hm, hdvd⟩ : m ≠ 0 ∧ m % 10 = 0), hdiv]
      refine ⟨hrec.1, hrec.2.1, ?_⟩
      rw [hrec.2.2]
      unfold PyDec.toRat
      simp only
      rw [hk]
      push_cast
      rw [zpow_add₀ (by norm_num : (10:ℚ) ≠ 0)]
      ring
    · rw [if_neg (by simp [hdvd])]
      refine ⟨hm, ?_, rfl⟩
      intro hd
      exact hdvd (Int.emod_eq_zero_of_dvd hd)

theorem normalize_of_mant_zero (d : PyDec) (h : d.mant = 0) :
    d.normalize = ⟨0, 0⟩ := by
  unfold PyDec.normalize
  simp [h]

theorem normalize_spec (d : PyDec) (h : d.mant ≠ 0) :
    d.normalize.mant ≠ 0 ∧ ¬ (10 : ℤ) ∣ d.normalize.mant ∧ d.normalize.toRat = d.toRat := by
  unfold PyDec.normalize
  simp only [h, if_false]
  exact normAux_spec d.mant.natAbs d.mant d.exp h le_rfl

theorem toRat_normalize (d : PyDec) : d.normalize.toRat = d.toRat := by
  by_cases h : d.mant = 0
  · rw [normalize_of_mant_zero d h]
    unfold PyDec.toRat
    simp [h]
  · exact (normalize_spec d h).2.2

theorem canonical_unique_le {m₁ m₂ e₁ e₂ : ℤ} (hle : e₁ ≤ e₂)
    (h₁ : ¬ (10 : ℤ) ∣ m₁) (hv : (m₁ : ℚ) * 10 ^ e₁ = (m₂ : ℚ) * 10 ^ e₂) :
    m₁ = m₂ ∧ e₁ = e₂ := by
  have h10 : (10 : ℚ) ≠ 0 := by norm_num
  have key : (m₁ : ℚ) = (m₂ : ℚ) * 10 ^ (e₂ - e₁) := by
    have h2 : (m₁ : ℚ) * 10 ^ e₁ * 10 ^ (-e₁) = (m₂ : ℚ) * 10 ^ e₂ * 10 ^ (-e₁) := by
      rw [hv]
    rw [mul_assoc, mul_assoc, ← zpow_add₀ h10, ← zpow_add₀ h10] at h2
    simpa using h2
  have hk : ((e₂ - e₁).toNat : ℤ) = e₂ - e₁ := Int.toNat_of_nonneg (by omega)
  have keyZ : m₁ = m₂ * 10 ^ (e₂ - e₁).toNat := by
    have : (m₁ : ℚ) = ((m₂ * 10 ^ (e₂ - e₁).toNat : ℤ) : ℚ) := by
      push_cast
      rw [key, ← zpow_natCast (10 : ℚ) (e₂ - e₁).toNat, hk]
    exact_mod_cast this
  rcases Nat.eq_zero_or_pos (e₂ - e₁).toNat with h0 | hpos
  · constructor
    · rw [keyZ, h0, pow_zero, mul_one]
    · omega
  · exfalso
    apply h₁
    obtain ⟨j, hj⟩ : ∃ j, (e₂ - e₁).toNat = j + 1 := ⟨(e₂ - e₁).toNat - 1, by omega⟩
    rw [keyZ, hj, pow_succ]
    exact ⟨m₂ * 10 ^ j, by ring⟩

theorem normalize_eq_of_toRat_eq {d₁ d₂ : PyDec} (h : d₁.toRat = d₂.toRat) :
    d₁.normalize = d₂.normalize := by
  by_cases h₁ : d₁.mant = 0
  · have hz : d₁.toRat = 0 := (toRat_eq_zero_iff d₁).2 h₁
    have h₂ : d₂.mant = 0 := (toRat_eq_zero_iff d₂).1 (h ▸ hz)
    rw [normalize_of_mant_zero d₁ h₁, normalize_of_mant_zero d₂ h₂]
  · have h₂ : d₂.mant ≠ 0 := by
      intro hc
      exact h₁ ((toRat_eq_zero_iff d₁).1 (h.trans ((toRat_eq_zero_iff d₂).2 hc)))
    obtain ⟨hm₁, hnd₁, hv₁⟩ := normalize_spec d₁ h₁
    obtain ⟨hm₂, hnd₂, hv₂⟩ := normalize_spec d₂ h₂
    have hv : d₁.normalize.toRat = d₂.normalize.toRat := by rw [hv₁, hv₂, h]
    unfold PyDec.toRat at hv
    rcases le_total d₁.normalize.exp d₂.normalize.exp with hle | hle
    · obtain ⟨hm, he⟩ := canonical_unique_le hle hnd₁ hv
      calc d₁.normalize = ⟨d₁.normalize.mant, d₁.normalize.exp⟩ := rfl
        _ = ⟨d₂.normalize.mant, d₂.normalize.exp⟩ := by rw [hm, he]
        _ = d₂.normalize := rfl
    · obtain ⟨hm, he⟩ := canonical_unique_le hle hnd₂ hv.symm
      calc d₁.normalize = ⟨d₁.normalize.mant, d₁.normalize.exp⟩ := rfl
        _ = ⟨d₂.normalize.mant, d₂.normalize.exp⟩ := by rw [← hm, ← he]
        _ = d₂.normalize := rfl

theorem format_decimal_congr {a b : PyDec} (h : a.toRat = b.toRat) :
    format_decimal a = format_decimal b := by
  unfold format_decimal
  rw [normalize_eq_of_toRat_eq h]

/-! ## Lexicographic order and sorting lemmas -/

theorem charsLe_refl : ∀ a : List Char, charsLe a a = true := by
  intro a
  induction a with
  | nil => rfl
  | cons x xs ih => simp [charsLe, ih]

theorem charsLe_total : ∀ a b : List Char, charsLe a b = true ∨ charsLe b a = true := by
  intro a
  induction a with
  | nil => intro b; left; rfl
  | cons x xs ih =>
    intro b
    cases b with
    | nil => right; rfl
    | cons y ys =>
      by_cases h1 : x.toNat < y.toNat
      · left; simp [charsLe, h1]
      · by_cases h2 : y.toNat < x.toNat
        · right; simp [charsLe, h2]
        · rcases ih ys with h | h
          · left; simp [charsLe, h1, h2, h]
          · right; simp [charsLe, h1, h2, h]

theorem charsLe_antisymm : ∀ a b : List Char,
    charsLe a b = true → charsLe b a = true → a = b := by
  intro a
  induction a with
  | nil =>
    intro b _ hba
    cases b with
    | nil => rfl
    | cons y ys => simp [charsLe] at hba
  | cons x xs ih =>
    intro b hab hba
    cases b with
    | nil => simp [charsLe] at hab
    | cons y ys =>
      by_cases h1 : x.toNat < y.toNat
      · exfalso
        simp only [charsLe] at hba
        rw [if_neg (by omega), if_pos h1] at hba
        exact Bool.noConfusion hba
      · by_cases h2 : y.toNat < x.toNat
        · exfalso
          simp only [charsLe] at hab
          rw [if_neg h1, if_pos h2] at hab
          exact Bool.noConfusion hab
        · have hn : x.toNat = y.toNat := by omega
          have hx : x = y := Char.eq_of_val_eq (UInt32.ext hn)
          subst hx
          simp only [charsLe, if_neg h1, if_neg h2] at hab hba
          rw [ih ys hab hba]

theorem charsLe_trans : ∀ a b c : List Char,
    charsLe a b = true → charsLe b c = true → charsLe a c = true := by
  intro a
  induction a with
  | nil => intro b c _ _; rfl
  | cons x xs ih =>
    intro b c hab hbc
    cases b with
    | nil => simp [charsLe] at hab
    | cons y ys =>
      cases c with
      | nil => simp [charsLe] at hbc
      | cons z zs =>
        simp only [charsLe] at hab hbc ⊢
        by_cases h1 : x.toNat < y.toNat
        · by_cases h2 : y.toNat < z.toNat
          · simp [show x.toNat < z.toNat by omega]
          · by_cases h3 : z.toNat < y.toNat
            · simp [h2, h3] at hbc
            · have : y.toNat = z.toNat := by omega
              simp [show x.toNat < z.toNat by omega]
        · by_cases h1' : y.toNat < x.toNat
          · simp [h1, h1'] at hab
          · have hxy : x.toNat = y.toNat := by omega
            by_cases h2 : y.toNat < z.toNat
            · simp [show x.toNat < z.toNat by omega]
            · by_cases h3 : z.toNat < y.toNat
              · simp [h2, h3] at hbc
              · rw [if_neg h1, if_neg h1'] at hab
                rw [if_neg h2, if_neg h3] at hbc
                rw [if_neg (by omega : ¬ x.toNat < z.toNat),
                  if_neg (by omega : ¬ z.toNat < x.toNat)]
                exact ih ys zs hab hbc

theorem insertSorted_perm (k : α → List Char) (x : α) :
    ∀ l : List α, (insertSorted k x l).Perm (x :: l) := by
  intro l
  induction l with
  | nil => exact List.Perm.refl _
  | cons y ys ih =>
    unfold insertSorted
    by_cases h : charsLe (k x) (k y) = true
    · simp [h]
    · simp only [h, if_false]
      exact (ih.cons y).trans (List.Perm.swap x y ys)

theorem sortByKey_perm (k : α → List Char) :
    ∀ l : List α, (sortByKey k l).Perm l := by
  intro l
  induction l with
  | nil => exact List.Perm.refl _
  | cons x xs ih =>
    unfold sortByKey
    exact (insertSorted_perm k x (sortByKey k xs)).trans (ih.cons x)

theorem insertSorted_sorted (k : α → List Char) (x : α) :
    ∀ l : List α, SortedBy k l → SortedBy k (insertSorted k x l) := by
  intro l
  induction l with
  | nil => intro _; simp [SortedBy, insertSorted]
  | cons y ys ih =>
    intro hs
    unfold SortedBy at hs ⊢
    rw [List.pairwise_cons] at hs
    unfold insertSorted
    by_cases h : charsLe (k x) (k y) = true
    · rw [if_pos h]
      refine List.Pairwise.cons ?_ (List.Pairwise.cons hs.1 hs.2)
      intro b hb
      rcases List.mem_cons.mp hb with hb | hb
      · subst hb; exact h
      · -- transitivity through y
        have hy := hs.1 b hb
        -- charsLe is transitive; prove inline below
        exact charsLe_trans (k x) (k y) (k b) h hy
    · rw [if_neg h]
      refine List.Pairwise.cons ?_ (ih hs.2)
      intro b hb
      have hb' := List.mem_cons.mp ((insertSorted_perm k x ys).mem_iff.1 hb)
      rcases hb' with hb' | hb'
      · subst hb'
        rcases charsLe_total (k y) (k b) with hyx | hxy
        · exact hyx
        · exact absurd hxy h
      · exact hs.1 b hb'

theorem sortByKey_sorted (k : α → List Char) :
    ∀ l : List α, SortedBy k (sortByKey k l) := by
  intro l
  induction l with
  | nil => exact List.Pairwise.nil
  | cons x xs ih => exact insertSorted_sorted k x _ ih

theorem insertSorted_congr (k₁ k₂ : α → List Char) (x : α) (hx : k₁ x = k₂ x) :
    ∀ l : List α, (∀ a ∈ l, k₁ a = k₂ a) → insertSorted k₁ x l = insertSorted k₂ x l := by
  intro l
  induction l with
  | nil => intro _; rfl
  | cons y ys ih =>
    intro hl
    have hy : k₁ y = k₂ y := hl y (List.mem_cons_self y ys)
    unfold insertSorted
    rw [hx, hy, ih fun a ha => hl a (List.mem_cons_of_mem y ha)]

theorem sortByKey_congr (k₁ k₂ : α → List Char) :
    ∀ l : List α, (∀ a ∈ l, k₁ a = k₂ a) → sortByKey k₁ l = sortByKey k₂ l := by
  intro l
  induction l with
  | nil => intro _; rfl
  | cons x xs ih =>
    intro hl
    unfold sortByKey
    rw [ih fun a ha => hl a (List.mem_cons_of_mem x ha),
      insertSorted_congr k₁ k₂ x (hl x (List.mem_cons_self x xs)) _ ?_]
    intro a ha
    exact hl a (List.mem_cons_of_mem x ((sortByKey_perm k₂ xs).mem_iff.1 ha))

theorem sorted_perm_eq (k : α → List Char) :
    ∀ l₁ l₂ : List α, l₁.Perm l₂ → SortedBy k l₁ → SortedBy k l₂ →
      (l₁.map k).Nodup → l₁ = l₂ := by
  intro l₁
  induction l₁ with
  | nil =>
    intro l₂ hp _ _ _
    exact (List.Perm.nil_eq hp).symm ▸ rfl
  | cons a t₁ ih =>
    intro l₂ hp hs₁ hs₂ hnd
    cases l₂ with
    | nil => exact absurd hp.symm (by simp)
    | cons b t₂ =>
      unfold SortedBy at hs₁ hs₂
      rw [List.pairwise_cons] at hs₁ hs₂
      have hab : a = b := by
        have hbmem : b ∈ a :: t₁ := hp.symm.subset (List.mem_cons_self b t₂)
        rcases List.mem_cons.mp hbmem with hb | hb
        · exact hb.symm
        · have hamem : a ∈ b :: t₂ := hp.subset (List.mem_cons_self a t₁)
          rcases List.mem_cons.mp hamem with ha | ha
          · exact ha
          · have h1 : charsLe (k a) (k b) = true := hs₁.1 b hb
            have h2 : charsLe (k b) (k a) = true := hs₂.1 a ha
            have hk : k a = k b := charsLe_antisymm _ _ h1 h2
            exfalso
            rw [List.map_cons, List.nodup_cons] at hnd
            exact hnd.1 (hk ▸ List.mem_map_of_mem k hb)
      subst hab
      have ht : t₁.Perm t₂ := hp.cons_inv
      rw [ih t₂ ht hs₁.2 hs₂.2 ?_]
      rw [List.map_cons, List.nodup_cons] at hnd
      exact hnd.2

/-! ## Character-list facts: splitting, separators, digits -/

theorem splitOnChar_sep {c : Char} :
    ∀ xs ys : List Char, c ∉ xs →
      splitOnChar c (xs ++ c :: ys) = xs :: splitOnChar c ys := by
  intro xs
  induction xs with
  | nil =>
    intro ys _
    simp [splitOnChar]
  | cons x xs ih =>
    intro ys hx
    have hxc : x ≠ c := fun h => hx (h ▸ List.mem_cons_self x xs)
    have hxs : c ∉ xs := fun h => hx (List.mem_cons_of_mem x h)
    have hrec : splitOnChar c (xs.append (c :: ys)) = xs :: splitOnChar c ys := ih ys hxs
    simp only [List.cons_append, splitOnChar, if_neg hxc, hrec]

theorem append_sep_inj {c : Char} :
    ∀ xs ys u v : List Char, c ∉ xs → c ∉ ys →
      xs ++ c :: u = ys ++ c :: v → xs = ys ∧ u = v := by
  intro xs
  induction xs with
  | nil =>
    intro ys u v _ hys h
    cases ys with
    | nil => simpa using h
    | cons y ys' =>
      simp only [List.nil_append, List.cons_append, List.cons.injEq] at h
      exact absurd (h.1 ▸ List.mem_cons_self y ys') hys
  | cons x xs ih =>
    intro ys u v hxs hys h
    cases ys with
    | nil =>
      simp only [List.cons_append, List.nil_append, List.cons.injEq] at h
      exact absurd (h.1 ▸ List.mem_cons_self x xs) hxs
    | cons y ys' =>
      simp only [List.cons_append, List.cons.injEq] at h
      have hxs' : c ∉ xs := fun hm => hxs (List.mem_cons_of_mem x hm)
      have hys' : c ∉ ys' := fun hm => hys (List.mem_cons_of_mem y hm)
      obtain ⟨h1, h2⟩ := ih ys' u v hxs' hys' h.2
      exact ⟨by rw [h.1, h1], h2⟩

theorem ledger_sort_key_sep (t a r : List Char) (ht : ',' ∉ t) (ha : ',' ∉ a) :
    ledger_sort_key (t ++ ',' :: a ++ ',' :: r) = t ++ '_' :: a := by
  unfold ledger_sort_key
  rw [show t ++ ',' :: a ++ ',' :: r = t ++ ',' :: (a ++ ',' :: r) by simp,
    splitOnChar_sep t (a ++ ',' :: r) ht, splitOnChar_sep a r ha]
  rfl

theorem digitChar_facts (k : Nat) (hk : k < 10) :
    isAsciiDigit (digitChar k) = true ∧ (digitChar k).toNat = 48 + k := by
  interval_cases k <;> exact ⟨by decide, by decide⟩

theorem digitChar_ne_dot (k : Nat) (hk : k < 10) : digitChar k ≠ '.' := by
  interval_cases k <;> decide

theorem digitChar_ne_zero_char (k : Nat) (hk : k < 10) (h : k ≠ 0) : digitChar k ≠ '0' := by
  interval_cases k <;> simp_all <;> decide

theorem natCharsAux_digits :
    ∀ (fuel n : Nat), ∀ ch ∈ natCharsAux fuel n, isAsciiDigit ch = true := by
  intro fuel
  induction fuel with
  | zero => intro n ch h; simp [natCharsAux] at h
  | succ fuel ih =>
    intro n ch h
    unfold natCharsAux at h
    by_cases hn : n < 10
    · rw [if_pos hn] at h
      rcases List.mem_cons.mp h with h | h
      · exact h ▸ (digitChar_facts n hn).1
      · simp at h
    · rw [if_neg hn] at h
      rcases List.mem_append.mp h with h | h
      · exact ih (n / 10) ch h
      · rcases List.mem_cons.mp h with h | h
        · exact h ▸ (digitChar_facts (n % 10) (Nat.mod_lt n (by norm_num))).1
        · simp at h

theorem natChars_digits (n : Nat) : ∀ ch ∈ natChars n, isAsciiDigit ch = true :=
  natCharsAux_digits (n + 1) n

theorem natCharsAux_last (fuel n : Nat) (hf : fuel ≠ 0) :
    natCharsAux fuel n ≠ [] ∧
      (natCharsAux fuel n).getLast? = some (digitChar (n % 10)) := by
  obtain ⟨fuel', rfl⟩ : ∃ f, fuel = f + 1 := ⟨fuel - 1, by omega⟩
  unfold natCharsAux
  by_cases hn : n < 10
  · rw [if_pos hn]
    refine ⟨by simp, ?_⟩
    rw [Nat.mod_eq_of_lt hn]
    rfl
  · rw [if_neg hn]
    refine ⟨by simp, ?_⟩
    rw [List.getLast?_append]
    rfl

theorem natChars_last (n : Nat) :
    natChars n ≠ [] ∧ (natChars n).getLast? = some (digitChar (n % 10)) :=
  natCharsAux_last (n + 1) n (by omega)

theorem dropTrailing_last {p : Char → Bool} {l : List Char} {ch : Char}
    (hl : l.getLast? = some ch) (hp : p ch = false) : dropTrailing p l = l := by
  have hne : l ≠ [] := by
    rintro rfl
    simp at hl
  have hdecomp : l.dropLast ++ [l.getLast hne] = l := List.dropLast_append_getLast hne
  have hcheq : l.getLast hne = ch := by
    have := List.getLast?_eq_getLast l hne
    rw [this] at hl
    exact Option.some.inj hl
  unfold dropTrailing
  rw [← hdecomp, hcheq]
  rw [List.reverse_append]
  simp only [List.reverse_cons, List.reverse_nil, List.nil_append, List.cons_append,
    List.dropWhile_cons]
  rw [hp]
  simp

theorem getLast?_append_right {l₁ l₂ : List Char} (h : l₂ ≠ []) :
    (l₁ ++ l₂).getLast? = l₂.getLast? := by
  rw [List.getLast?_append]
  obtain ⟨x, hx⟩ := Option.isSome_iff_exists.mp (List.getLast?_isSome.mpr h)
  rw [hx]
  rfl

/-! ## Sorting commutes with mapping -/

theorem insertSorted_map (k : β → List Char) (f : α → β) (x : α) :
    ∀ l : List α, insertSorted k (f x) (l.map f) = (insertSorted (fun a => k (f a)) x l).map f := by
  intro l
  induction l with
  | nil => rfl
  | cons y ys ih =>
    simp only [List.map_cons]
    unfold insertSorted
    by_cases h : charsLe (k (f x)) (k (f y)) = true
    · rw [if_pos h, if_pos h]
      rfl
    · rw [if_neg h, if_neg h]
      simp [ih]

theorem sortByKey_map (k : β → List Char) (f : α → β) :
    ∀ l : List α, sortByKey k (l.map f) = (sortByKey (fun a => k (f a)) l).map f := by
  intro l
  induction l with
  | nil => rfl
  | cons x xs ih =>
    simp only [List.map_cons]
    unfold sortByKey
    rw [ih, insertSorted_map]

/-! ## `format_decimal` properties -/

theorem toRat_ofInt (n : ℤ) : (PyDec.ofInt n).toRat = (n : ℚ) := by
  unfold PyDec.ofInt PyDec.toRat
  simp

theorem beq_trunc_of_exp_nonneg (d : PyDec) (h : 0 ≤ d.exp) :
    PyDec.beq d (PyDec.ofInt d.truncInt) = true := by
  rw [beq_iff, toRat_ofInt]
  unfold PyDec.truncInt
  rw [if_pos h]
  unfold PyDec.toRat
  push_cast
  rw [← zpow_natCast (10 : ℚ) d.exp.toNat, Int.toNat_of_nonneg h]

theorem beq_trunc_of_mant_zero (d : PyDec) (h : d.mant = 0) :
    PyDec.beq d (PyDec.ofInt d.truncInt) = true := by
  rw [beq_iff, toRat_ofInt]
  unfold PyDec.truncInt
  have hz : d.toRat = 0 := (toRat_eq_zero_iff d).2 h
  rw [hz, h]
  by_cases he : 0 ≤ d.exp
  · rw [if_pos he]
    simp
  · rw [if_neg he]
    simp

theorem exp_neg_of_beq_trunc_false (d : PyDec)
    (h : PyDec.beq d (PyDec.ofInt d.truncInt) = false) : d.mant ≠ 0 ∧ d.exp < 0 := by
  constructor
  · intro hm
    rw [beq_trunc_of_mant_zero d hm] at h
    exact Bool.noConfusion h
  · by_contra he
    rw [beq_trunc_of_exp_nonneg d (by omega)] at h
    exact Bool.noConfusion h

theorem dot_not_digit : ∀ ch : Char, isAsciiDigit ch = true → ch ≠ '.' := by
  intro ch h hc
  subst hc
  exact Bool.noConfusion h

theorem dot_notin_intChars (n : ℤ) : '.' ∉ intChars n := by
  unfold intChars
  by_cases h : n < 0
  · rw [if_pos h]
    intro hmem
    rcases List.mem_cons.mp hmem with h' | h'
    · exact absurd h' (by decide)
    · exact dot_not_digit '.' (natChars_digits n.natAbs '.' h') rfl
  · rw [if_neg h]
    intro hmem
    exact dot_not_digit '.' (natChars_digits n.natAbs '.' hmem) rfl

theorem format_decimal_of_mant_zero (d : PyDec) (h : d.mant = 0) :
    format_decimal d = "0" := by
  unfold format_decimal
  rw [normalize_of_mant_zero d h]
  decide

theorem format_decimal_integral (d : PyDec) (h : ∃ n : ℤ, d.toRat = (n : ℚ)) :
    '.' ∉ (format_decimal d).data := by
  obtain ⟨n, hn⟩ := h
  have key : PyDec.beq d.normalize (PyDec.ofInt d.normalize.truncInt) = true := by
    by_cases hm : d.normalize.mant = 0
    · exact beq_trunc_of_mant_zero _ hm
    · by_cases he : 0 ≤ d.normalize.exp
      · exact beq_trunc_of_exp_nonneg _ he
      · -- canonical with negative exponent cannot have an integer value
        exfalso
        have hm0 : d.mant ≠ 0 := by
          intro hz
          exact hm (by rw [normalize_of_mant_zero d hz])
        obtain ⟨hmn, hnd, hv⟩ := normalize_spec d hm0
        have hval : d.normalize.toRat = (n : ℚ) := by rw [hv, hn]
        set a := d.normalize with ha
        set k := (-a.exp).toNat with hk
        have hk1 : 1 ≤ k := by omega
        have hke : a.exp = -(k : ℤ) := by omega
        unfold PyDec.toRat at hval
        rw [hke] at hval
        have h2 : (a.mant : ℚ) = (n : ℚ) * 10 ^ (k : ℤ) := by
          have h10 : (10 : ℚ) ≠ 0 := by norm_num
          have := congrArg (fun q : ℚ => q * 10 ^ (k : ℤ)) hval
          simpa [mul_assoc, ← zpow_add₀ h10] using this
        have h3 : a.mant = n * 10 ^ k := by
          have : (a.mant : ℚ) = ((n * 10 ^ k : ℤ) : ℚ) := by
            push_cast
            rw [h2, zpow_natCast]
          exact_mod_cast this
        apply hnd
        obtain ⟨j, hj⟩ : ∃ j, k = j + 1 := ⟨k - 1, by omega⟩
        rw [h3, hj, pow_succ]
        exact ⟨n * 10 ^ j, by ring⟩
  unfold format_decimal
  rw [if_pos key]
  exact dot_notin_intChars _

theorem formatFixedChars_last (a : PyDec) (hm : a.mant ≠ 0) (he : a.exp < 0) :
    (formatFixedChars a).getLast? = some (digitChar (a.mant.natAbs % 10)) := by
  unfold formatFixedChars
  rw [if_neg (by omega)]
  dsimp only
  have hdig := natChars_last a.mant.natAbs
  set e := (-a.exp).toNat with hee
  set digs := padLeft '0' (e + 1) (natChars a.mant.natAbs) with hdigs
  have hdlast : digs.getLast? = some (digitChar (a.mant.natAbs % 10)) := by
    rw [hdigs]
    unfold padLeft
    rw [getLast?_append_right hdig.1]
    exact hdig.2
  have hlen : e + 1 ≤ digs.length := by
    rw [hdigs]
    unfold padLeft
    rw [List.length_append, List.length_replicate]
    omega
  have hdropne : digs.drop (digs.length - e) ≠ [] := by
    intro hc
    have := List.length_drop (digs.length - e) digs
    rw [hc] at this
    simp at this
    omega
  have hdroplast : (digs.drop (digs.length - e)).getLast? = digs.getLast? := by
    conv_rhs => rw [← List.take_append_drop (digs.length - e) digs]
    rw [getLast?_append_right hdropne]
  rw [@getLast?_append_right
    ((if a.mant < 0 then ['-'] else []) ++ List.take (digs.length - e) digs)
    ('.' :: List.drop (digs.length - e) digs)
    (show '.' :: List.drop (digs.length - e) digs ≠ [] by simp)]
  rw [show '.' :: List.drop (digs.length - e) digs =
    ['.'] ++ List.drop (digs.length - e) digs from rfl]
  rw [getLast?_append_right hdropne, hdroplast, hdlast]

theorem format_decimal_no_trailing_zero (d : PyDec)
    (hdot : '.' ∈ (format_decimal d).data) :
    (format_decimal d).data.getLast? ≠ some '0' := by
  by_cases key : PyDec.beq d.normalize (PyDec.ofInt d.normalize.truncInt) = true
  · exfalso
    unfold format_decimal at hdot
    rw [if_pos key] at hdot
    exact dot_notin_intChars _ hdot
  · have hbf : PyDec.beq d.normalize (PyDec.ofInt d.normalize.truncInt) = false := by
      cases hb : PyDec.beq d.normalize (PyDec.ofInt d.normalize.truncInt) with
      | false => rfl
      | true => exact absurd hb key
    obtain ⟨hm, he⟩ := exp_neg_of_beq_trunc_false _ hbf
    have hm0 : d.mant ≠ 0 := by
      intro hz
      rw [normalize_of_mant_zero d hz] at hm
      exact hm rfl
    obtain ⟨hmn, hnd, _⟩ := normalize_spec d hm0
    have hmod : d.normalize.mant.natAbs % 10 ≠ 0 := by
      intro hmod0
      apply hnd
      apply Int.natAbs_dvd_natAbs.mp
      rw [show (10 : ℤ).natAbs = 10 from rfl]
      exact Nat.dvd_of_mod_eq_zero hmod0
    have hk10 : d.normalize.mant.natAbs % 10 < 10 := Nat.mod_lt _ (by norm_num)
    have hlast := formatFixedChars_last d.normalize hm he
    have hne0 : digitChar (d.normalize.mant.natAbs % 10) ≠ '0' :=
      digitChar_ne_zero_char _ hk10 hmod
    have hnedot : digitChar (d.normalize.mant.natAbs % 10) ≠ '.' :=
      digitChar_ne_dot _ hk10
    have hd1 : dropTrailing (fun c => c = '0') (formatFixedChars d.normalize) =
        formatFixedChars d.normalize :=
      dropTrailing_last hlast (by simp [hne0])
    have hd2 : dropTrailing (fun c => c = '.') (formatFixedChars d.normalize) =
        formatFixedChars d.normalize :=
      dropTrailing_last hlast (by simp [hnedot])
    have hsne : formatFixedChars d.normalize ≠ [] := by
      intro hc
      rw [hc] at hlast
      simp at hlast
    unfold format_decimal
    rw [if_neg key]
    simp only [hd1, hd2]
    rw [if_neg hsne]
    intro hc
    rw [show (String.mk (formatFixedChars d.normalize)).data = formatFixedChars d.normalize
      from rfl] at hc
    rw [hlast] at hc
    exact hne0 (Option.some.inj hc)

/-! ## Balance-fold lemmas -/

theorem toRat_zero : PyDec.zero.toRat = 0 := by
  unfold PyDec.zero PyDec.toRat
  simp

theorem findRow_cons (r : BRow) (rows : List BRow) (k : String × String × String) :
    findRow (r :: rows) k = if rowKey r = k then some r else findRow rows k := by
  unfold findRow
  by_cases h : rowKey r = k
  · rw [List.find?_cons_of_pos _ (by simp [h]), if_pos h]
  · rw [List.find?_cons_of_neg _ (by simp [h]), if_neg h]

theorem rowKey_mk (t th a : String) (c dbt n o : PyDec) :
    rowKey ⟨t, th, a, c, dbt, n, o⟩ = (t, th, a) := rfl

theorem creditTo_cond_iff (t th a : String) (r : BRow) :
    (r.tick = t ∧ r.tick_hash = th ∧ r.address = a) ↔ rowKey r = (t, th, a) := by
  unfold rowKey
  constructor
  · rintro ⟨h1, h2, h3⟩
    rw [h1, h2, h3]
  · intro h
    exact ⟨congrArg (fun p => p.1) h, congrArg (fun p => p.2.1) h,
      congrArg (fun p => p.2.2) h⟩

theorem creditTo_netRat (t th a : String) (x : PyDec) :
    ∀ (rows : List BRow) (k : String × String × String),
      netRat (creditTo t th a x rows) k =
        netRat rows k + (if k = (t, th, a) then x.toRat else 0) := by
  intro rows
  induction rows with
  | nil =>
    intro k
    unfold creditTo netRat
    rw [findRow_cons]
    unfold findRow
    by_cases hk : k = (t, th, a)
    · rw [if_pos (by rw [rowKey_mk, hk])]
      simp [hk, toRat_zero, toRat_sub]
    · rw [if_neg (by rw [rowKey_mk]; exact fun h => hk h.symm)]
      simp [hk]
  | cons r rest ih =>
    intro k
    unfold creditTo
    by_cases hc : r.tick = t ∧ r.tick_hash = th ∧ r.address = a
    · rw [if_pos hc]
      have hkey : rowKey r = (t, th, a) := (creditTo_cond_iff t th a r).1 hc
      unfold netRat
      rw [findRow_cons, findRow_cons]
      rw [show rowKey { r with credit := r.credit.add x } = rowKey r from rfl, hkey]
      by_cases hk : k = (t, th, a)
      · rw [if_pos hk.symm, if_pos hk.symm]
        simp only [hk, if_pos rfl]
        rw [toRat_add]
        simp only [if_true]
        ring
      · rw [if_neg (fun h => hk h.symm), if_neg (fun h => hk h.symm)]
        simp [hk]
    · rw [if_neg hc]
      have hkey : rowKey r ≠ (t, th, a) := fun h => hc ((creditTo_cond_iff t th a r).2 h)
      unfold netRat
      rw [findRow_cons, findRow_cons]
      by_cases hk : rowKey r = k
      · rw [if_pos hk, if_pos hk]
        have : k ≠ (t, th, a) := fun h => hkey (hk.trans h)
        simp [this]
      · rw [if_neg hk, if_neg hk]
        exact ih k

theorem debitTo_netRat (t th a : String) (x : PyDec) :
    ∀ (rows : List BRow) (k : String × String × String),
      netRat (debitTo t th a x rows) k =
        netRat rows k + (if k = (t, th, a) then -x.toRat else 0) := by
  intro rows
  induction rows with
  | nil =>
    intro k
    unfold debitTo netRat
    rw [findRow_cons]
    unfold findRow
    by_cases hk : k = (t, th, a)
    · rw [if_pos (by rw [rowKey_mk, hk])]
      simp [hk, toRat_zero, toRat_sub]
    · rw [if_neg (by rw [rowKey_mk]; exact fun h => hk h.symm)]
      simp [hk]
  | cons r rest ih =>
    intro k
    unfold debitTo
    by_cases hc : r.tick = t ∧ r.tick_hash = th ∧ r.address = a
    · rw [if_pos hc]
      have hkey : rowKey r = (t, th, a) := (creditTo_cond_iff t th a r).1 hc
      unfold netRat
      rw [findRow_cons, findRow_cons]
      rw [show rowKey { r with debit := r.debit.add x } = rowKey r from rfl, hkey]
      by_cases hk : k = (t, th, a)
      · rw [if_pos hk.symm, if_pos hk.symm]
        simp only [hk, if_pos rfl]
        rw [toRat_add]
        simp only [if_true]
        ring
      · rw [if_neg (fun h => hk h.symm), if_neg (fun h => hk h.symm)]
        simp [hk]
    · rw [if_neg hc]
      have hkey : rowKey r ≠ (t, th, a) := fun h => hc ((creditTo_cond_iff t th a r).2 h)
      unfold netRat
      rw [findRow_cons, findRow_cons]
      by_cases hk : rowKey r = k
      · rw [if_pos hk, if_pos hk]
        have : k ≠ (t, th, a) := fun h => hkey (hk.trans h)
        simp [this]
      · rw [if_neg hk, if_neg hk]
        exact ih k

theorem creditTo_presence (t th a : String) (x : PyDec) :
    ∀ (rows : List BRow) (k : String × String × String),
      (findRow (creditTo t th a x rows) k).isSome = true ↔
        (findRow rows k).isSome = true ∨ k = (t, th, a) := by
  intro rows
  induction rows with
  | nil =>
    intro k
    unfold creditTo
    rw [findRow_cons]
    unfold findRow
    by_cases hk : k = (t, th, a)
    · rw [if_pos (by rw [rowKey_mk, hk])]
      simp [hk]
    · rw [if_neg (by rw [rowKey_mk]; exact fun h => hk h.symm)]
      simp [hk]
  | cons r rest ih =>
    intro k
    unfold creditTo
    by_cases hc : r.tick = t ∧ r.tick_hash = th ∧ r.address = a
    · rw [if_pos hc]
      have hkey : rowKey r = (t, th, a) := (creditTo_cond_iff t th a r).1 hc
      rw [findRow_cons, findRow_cons]
      rw [show rowKey { r with credit := r.credit.add x } = rowKey r from rfl]
      by_cases hk : rowKey r = k
      · rw [if_pos hk, if_pos hk]
        simp
      · rw [if_neg hk, if_neg hk]
        constructor
        · intro h; exact Or.inl h
        · rintro (h | h)
          · exact h
          · exact absurd (hkey.trans h.symm) hk
    · rw [if_neg hc]
      have hkey : rowKey r ≠ (t, th, a) := fun h => hc ((creditTo_cond_iff t th a r).2 h)
      rw [findRow_cons, findRow_cons]
      by_cases hk : rowKey r = k
      · rw [if_pos hk, if_pos hk]
        simp
      · rw [if_neg hk, if_neg hk]
        exact ih k

theorem debitTo_presence (t th a : String) (x : PyDec) :
    ∀ (rows : List BRow) (k : String × String × String),
      (findRow (debitTo t th a x rows) k).isSome = true ↔
        (findRow rows k).isSome = true ∨ k = (t, th, a) := by
  intro rows
  induction rows with
  | nil =>
    intro k
    unfold debitTo
    rw [findRow_cons]
    unfold findRow
    by_cases hk : k = (t, th, a)
    · rw [if_pos (by rw [rowKey_mk, hk])]
      simp [hk]
    · rw [if_neg (by rw [rowKey_mk]; exact fun h => hk h.symm)]
      simp [hk]
  | cons r rest ih =>
    intro k
    unfold debitTo
    by_cases hc : r.tick = t ∧ r.tick_hash = th ∧ r.address = a
    · rw [if_pos hc]
      have hkey : rowKey r = (t, th, a) := (creditTo_cond_iff t th a r).1 hc
      rw [findRow_cons, findRow_cons]
      rw [show rowKey { r with debit := r.debit.add x } = rowKey r from rfl]
      by_cases hk : rowKey r = k
      · rw [if_pos hk, if_pos hk]
        simp
      · rw [if_neg hk, if_neg hk]
        constructor
        · intro h; exact Or.inl h
        · rintro (h | h)
          · exact h
          · exact absurd (hkey.trans h.symm) hk
    · rw [if_neg hc]
      rw [findRow_cons, findRow_cons]
      by_cases hk : rowKey r = k
      · rw [if_pos hk, if_pos hk]
        simp
      · rw [if_neg hk, if_neg hk]
        exact ih k

theorem creditTo_origin (t th a : String) (x : PyDec) :
    ∀ (rows : List BRow) (r' : BRow), r' ∈ creditTo t th a x rows →
      (∃ r ∈ rows, rowKey r' = rowKey r) ∨ rowKey r' = (t, th, a) := by
  intro rows
  induction rows with
  | nil =>
    intro r' h
    unfold creditTo at h
    rcases List.mem_cons.mp h with h | h
    · right; rw [h, rowKey_mk]
    · simp at h
  | cons r rest ih =>
    intro r' h
    unfold creditTo at h
    by_cases hc : r.tick = t ∧ r.tick_hash = th ∧ r.address = a
    · rw [if_pos hc] at h
      rcases List.mem_cons.mp h with h | h
      · left
        exact ⟨r, List.mem_cons_self r rest, by rw [h]; rfl⟩
      · left
        exact ⟨r', List.mem_cons_of_mem r h, rfl⟩
    · rw [if_neg hc] at h
      rcases List.mem_cons.mp h with h | h
      · left
        exact ⟨r, List.mem_cons_self r rest, by rw [h]⟩
      · rcases ih r' h with ⟨r0, hr0, hk⟩ | hk
        · exact Or.inl ⟨r0, List.mem_cons_of_mem r hr0, hk⟩
        · exact Or.inr hk

theorem debitTo_origin (t th a : String) (x : PyDec) :
    ∀ (rows : List BRow) (r' : BRow), r' ∈ debitTo t th a x rows →
      (∃ r ∈ rows, rowKey r' = rowKey r) ∨ rowKey r' = (t, th, a) := by
  intro rows
  induction rows with
  | nil =>
    intro r' h
    unfold debitTo at h
    rcases List.mem_cons.mp h with h | h
    · right; rw [h, rowKey_mk]
    · simp at h
  | cons r rest ih =>
    intro r' h
    unfold debitTo at h
    by_cases hc : r.tick = t ∧ r.tick_hash = th ∧ r.address = a
    · rw [if_pos hc] at h
      rcases List.mem_cons.mp h with h | h
      · left
        exact ⟨r, List.mem_cons_self r rest, by rw [h]; rfl⟩
      · left
        exact ⟨r', List.mem_cons_of_mem r h, rfl⟩
    · rw [if_neg hc] at h
      rcases List.mem_cons.mp h with h | h
      · left
        exact ⟨r, List.mem_cons_self r rest, by rw [h]⟩
      · rcases ih r' h with ⟨r0, hr0, hk⟩ | hk
        · exact Or.inl ⟨r0, List.mem_cons_of_mem r hr0, hk⟩
        · exact Or.inr hk

theorem mem_keys_creditTo (t th a : String) (x : PyDec) (rows : List BRow)
    (k : String × String × String) (h : k ∈ (creditTo t th a x rows).map rowKey) :
    k ∈ rows.map rowKey ∨ k = (t, th, a) := by
  obtain ⟨r', hr', hk⟩ := List.mem_map.mp h
  rcases creditTo_origin t th a x rows r' hr' with ⟨r, hr, hkey⟩ | hkey
  · exact Or.inl (hk ▸ hkey ▸ List.mem_map_of_mem rowKey hr)
  · exact Or.inr (hk ▸ hkey)

theorem mem_keys_debitTo (t th a : String) (x : PyDec) (rows : List BRow)
    (k : String × String × String) (h : k ∈ (debitTo t th a x rows).map rowKey) :
    k ∈ rows.map rowKey ∨ k = (t, th, a) := by
  obtain ⟨r', hr', hk⟩ := List.mem_map.mp h
  rcases debitTo_origin t th a x rows r' hr' with ⟨r, hr, hkey⟩ | hkey
  · exact Or.inl (hk ▸ hkey ▸ List.mem_map_of_mem rowKey hr)
  · exact Or.inr (hk ▸ hkey)

theorem creditTo_keysNodup (t th a : String) (x : PyDec) :
    ∀ rows : List BRow, keysNodup rows → keysNodup (creditTo t th a x rows) := by
  intro rows
  induction rows with
  | nil =>
    intro _
    unfold creditTo keysNodup
    simp
  | cons r rest ih =>
    intro hnd
    unfold keysNodup at hnd ⊢
    rw [List.map_cons, List.nodup_cons] at hnd
    unfold creditTo
    by_cases hc : r.tick = t ∧ r.tick_hash = th ∧ r.address = a
    · rw [if_pos hc]
      rw [List.map_cons, List.nodup_cons]
      exact ⟨by exact hnd.1, hnd.2⟩
    · rw [if_neg hc]
      rw [List.map_cons, List.nodup_cons]
      refine ⟨?_, ih hnd.2⟩
      intro hmem
      rcases mem_keys_creditTo t th a x rest (rowKey r) hmem with h | h
      · exact hnd.1 h
      · exact hc ((creditTo_cond_iff t th a r).2 h)

theorem debitTo_keysNodup (t th a : String) (x : PyDec) :
    ∀ rows : List BRow, keysNodup rows → keysNodup (debitTo t th a x rows) := by
  intro rows
  induction rows with
  | nil =>
    intro _
    unfold debitTo keysNodup
    simp
  | cons r rest ih =>
    intro hnd
    unfold keysNodup at hnd ⊢
    rw [List.map_cons, List.nodup_cons] at hnd
    unfold debitTo
    by_cases hc : r.tick = t ∧ r.tick_hash = th ∧ r.address = a
    · rw [if_pos hc]
      rw [List.map_cons, List.nodup_cons]
      exact ⟨by exact hnd.1, hnd.2⟩
    · rw [if_neg hc]
      rw [List.map_cons, List.nodup_cons]
      refine ⟨?_, ih hnd.2⟩
      intro hmem
      rcases mem_keys_debitTo t th a x rest (rowKey r) hmem with h | h
      · exact hnd.1 h
      · exact hc ((creditTo_cond_iff t th a r).2 h)

theorem balance_step_netRat (rows : List BRow) (o : SrcOp) (k : String × String × String) :
    netRat (balance_step rows o) k = netRat rows k + contribRat o k := by
  have hMT : ("MINT" : String) ≠ "TRANSFER" := by decide
  have hTM : ("TRANSFER" : String) ≠ "MINT" := by decide
  unfold balance_step contribRat
  by_cases h1 : o.valid = true ∧ o.op = "MINT"
  · rw [if_pos h1, creditTo_netRat]
    simp only [h1.1, h1.2, true_and, hMT, false_and, and_false, if_false, add_zero]
  · by_cases h2 : o.valid = true ∧ o.op = "TRANSFER"
    · rw [if_neg h1, if_pos h2, creditTo_netRat, debitTo_netRat]
      simp only [h2.1, h2.2, true_and, hTM, false_and, and_false, if_false, zero_add]
      ring
    · rw [if_neg h1, if_neg h2]
      rw [if_neg (fun hc => h1 ⟨hc.1, hc.2.1⟩), if_neg (fun hc => h2 ⟨hc.1, hc.2.1⟩),
        if_neg (fun hc => h2 ⟨hc.1, hc.2.1⟩)]
      ring

theorem balance_step_presence (rows : List BRow) (o : SrcOp) (k : String × String × String) :
    (findRow (balance_step rows o) k).isSome = true ↔
      (findRow rows k).isSome = true ∨ touches o k := by
  have hMT : ("MINT" : String) ≠ "TRANSFER" := by decide
  unfold balance_step
  by_cases h1 : o.valid = true ∧ o.op = "MINT"
  · rw [if_pos h1, creditTo_presence]
    unfold touches
    simp [h1.1, h1.2, hMT]
  · by_cases h2 : o.valid = true ∧ o.op = "TRANSFER"
    · rw [if_neg h1, if_pos h2, creditTo_presence]
      unfold touches
      constructor
      · intro h
        rcases h with h | h
        · rcases (debitTo_presence _ _ _ _ rows k).1 h with h' | h'
          · exact Or.inl h'
          · exact Or.inr (Or.inr ⟨h2.1, h2.2, Or.inl h'⟩)
        · exact Or.inr (Or.inr ⟨h2.1, h2.2, Or.inr h⟩)
      · intro h
        rcases h with h | ⟨hv, hop, _⟩ | ⟨hv, hop, hk | hk⟩
        · exact Or.inl ((debitTo_presence _ _ _ _ rows k).2 (Or.inl h))
        · exact absurd (h2.2.symm.trans hop) (fun hc => hMT hc.symm)
        · exact Or.inl ((debitTo_presence _ _ _ _ rows k).2 (Or.inr hk))
        · exact Or.inr hk
    · rw [if_neg h1, if_neg h2]
      unfold touches
      constructor
      · intro h
        exact Or.inl h
      · intro h
        rcases h with h | ⟨hv, hop, _⟩ | ⟨hv, hop, _⟩
        · exact h
        · exact absurd ⟨hv, hop⟩ h1
        · exact absurd ⟨hv, hop⟩ h2

theorem balance_step_keysNodup (rows : List BRow) (o : SrcOp) (h : keysNodup rows) :
    keysNodup (balance_step rows o) := by
  unfold balance_step
  by_cases h1 : o.valid = true ∧ o.op = "MINT"
  · rw [if_pos h1]
    exact creditTo_keysNodup _ _ _ _ rows h
  · by_cases h2 : o.valid = true ∧ o.op = "TRANSFER"
    · rw [if_neg h1, if_pos h2]
      exact creditTo_keysNodup _ _ _ _ _ (debitTo_keysNodup _ _ _ _ rows h)
    · rwa [if_neg h1, if_neg h2]

theorem balance_step_origin (rows : List BRow) (o : SrcOp) (r : BRow)
    (h : r ∈ balance_step rows o) :
    (∃ r₀ ∈ rows, rowKey r = rowKey r₀) ∨ touches o (rowKey r) := by
  unfold balance_step at h
  by_cases h1 : o.valid = true ∧ o.op = "MINT"
  · rw [if_pos h1] at h
    rcases creditTo_origin _ _ _ _ rows r h with h' | h'
    · exact Or.inl h'
    · exact Or.inr (Or.inl ⟨h1.1, h1.2, h'⟩)
  · by_cases h2 : o.valid = true ∧ o.op = "TRANSFER"
    · rw [if_neg h1, if_pos h2] at h
      rcases creditTo_origin _ _ _ _ _ r h with h' | h'
      · obtain ⟨r₀, hr₀, hk⟩ := h'
        rcases debitTo_origin _ _ _ _ rows r₀ hr₀ with h'' | h''
        · obtain ⟨r₁, hr₁, hk'⟩ := h''
          exact Or.inl ⟨r₁, hr₁, hk.trans hk'⟩
        · exact Or.inr (Or.inr ⟨h2.1, h2.2, Or.inl (hk.trans h'')⟩)
      · exact Or.inr (Or.inr ⟨h2.1, h2.2, Or.inr h'⟩)
    · rw [if_neg h1, if_neg h2] at h
      exact Or.inl ⟨r, h, rfl⟩

theorem fold_netRat :
    ∀ (l : List SrcOp) (init : List BRow) (k : String × String × String),
      netRat (l.foldl balance_step init) k =
        netRat init k + (l.map fun o => contribRat o k).sum := by
  intro l
  induction l with
  | nil => intro init k; simp
  | cons o l ih =>
    intro init k
    rw [List.foldl_cons, ih, balance_step_netRat, List.map_cons, List.sum_cons]
    ring

theorem fold_presence :
    ∀ (l : List SrcOp) (init : List BRow) (k : String × String × String),
      (findRow (l.foldl balance_step init) k).isSome = true ↔
        (findRow init k).isSome = true ∨ ∃ o ∈ l, touches o k := by
  intro l
  induction l with
  | nil => intro init k; simp
  | cons o l ih =>
    intro init k
    rw [List.foldl_cons, ih, balance_step_presence]
    constructor
    · rintro ((h | h) | ⟨o', ho', ht⟩)
      · exact Or.inl h
      · exact Or.inr ⟨o, List.mem_cons_self o l, h⟩
      · exact Or.inr ⟨o', List.mem_cons_of_mem o ho', ht⟩
    · rintro (h | ⟨o', ho', ht⟩)
      · exact Or.inl (Or.inl h)
      · rcases List.mem_cons.mp ho' with rfl | ho'
        · exact Or.inl (Or.inr ht)
        · exact Or.inr ⟨o', ho', ht⟩

theorem fold_keysNodup :
    ∀ (l : List SrcOp) (init : List BRow), keysNodup init →
      keysNodup (l.foldl balance_step init) := by
  intro l
  induction l with
  | nil => intro init h; exact h
  | cons o l ih =>
    intro init h
    rw [List.foldl_cons]
    exact ih _ (balance_step_keysNodup init o h)

theorem fold_origin :
    ∀ (l : List SrcOp) (init : List BRow) (r : BRow),
      r ∈ l.foldl balance_step init →
        (∃ r₀ ∈ init, rowKey r = rowKey r₀) ∨ ∃ o ∈ l, touches o (rowKey r) := by
  intro l
  induction l with
  | nil =>
    intro init r h
    exact Or.inl ⟨r, h, rfl⟩
  | cons o l ih =>
    intro init r h
    rw [List.foldl_cons] at h
    rcases ih _ r h with ⟨r₀, hr₀, hk⟩ | ⟨o', ho', ht⟩
    · rcases balance_step_origin init o r₀ hr₀ with ⟨r₁, hr₁, hk'⟩ | ht
      · exact Or.inl ⟨r₁, hr₁, hk.trans hk'⟩
      · exact Or.inr ⟨o, List.mem_cons_self o l, hk ▸ ht⟩
    · exact Or.inr ⟨o', List.mem_cons_of_mem o ho', ht⟩

theorem update_netRat (l : List SrcOp) (k : String × String × String) :
    netRat (update_src20_balances l) k = (l.map fun o => contribRat o k).sum := by
  unfold update_src20_balances
  rw [fold_netRat]
  unfold netRat findRow
  simp

theorem update_presence (l : List SrcOp) (k : String × String × String) :
    (findRow (update_src20_balances l) k).isSome = true ↔ ∃ o ∈ l, touches o k := by
  unfold update_src20_balances
  rw [fold_presence]
  unfold findRow
  simp

theorem update_keysNodup (l : List SrcOp) : keysNodup (update_src20_balances l) := by
  unfold update_src20_balances
  exact fold_keysNodup l [] (by unfold keysNodup; simp)

theorem update_origin (l : List SrcOp) (r : BRow) (h : r ∈ update_src20_balances l) :
    ∃ o ∈ l, touches o (rowKey r) := by
  unfold update_src20_balances at h
  rcases fold_origin l [] r h with ⟨r₀, hr₀, _⟩ | h'
  · simp at hr₀
  · exact h'

theorem findRow_of_mem :
    ∀ (rows : List BRow), keysNodup rows → ∀ r ∈ rows, findRow rows (rowKey r) = some r := by
  intro rows
  induction rows with
  | nil => intro _ r h; simp at h
  | cons r0 rest ih =>
    intro hnd r h
    unfold keysNodup at hnd
    rw [List.map_cons, List.nodup_cons] at hnd
    rw [findRow_cons]
    rcases List.mem_cons.mp h with rfl | h
    · rw [if_pos rfl]
    · by_cases hk : rowKey r0 = rowKey r
      · exact absurd (hk ▸ List.mem_map_of_mem rowKey h) hnd.1
      · rw [if_neg hk]
        exact ih hnd.2 r h

theorem findRow_mem :
    ∀ (rows : List BRow) (k : String × String × String) (r : BRow),
      findRow rows k = some r → r ∈ rows ∧ rowKey r = k := by
  intro rows
  induction rows with
  | nil => intro k r h; simp [findRow] at h
  | cons r0 rest ih =>
    intro k r h
    rw [findRow_cons] at h
    by_cases hk : rowKey r0 = k
    · rw [if_pos hk] at h
      have hr := Option.some.inj h
      subst hr
      exact ⟨List.mem_cons_self r0 rest, hk⟩
    · rw [if_neg hk] at h
      obtain ⟨h1, h2⟩ := ih k r h
      exact ⟨List.mem_cons_of_mem r0 h1, h2⟩

/-! ## Ledger entry lemmas and the canonical-string theorems -/

theorem str_ext {s t : String} (h : s.data = t.data) : s = t := by
  cases s
  cases t
  exact congrArg String.mk h

theorem ledger_entry_no_escape (decode : String → String) (r : BRow)
    (h : '\\' ∉ r.tick.data) :
    ledger_entry decode r =
      r.tick.data ++ ',' :: r.address.data ++
        ',' :: (format_decimal ((r.net_change.add r.original_amt).normalize)).data := by
  unfold ledger_entry
  rw [if_neg h]

theorem table_row_tick (storedAmt : String → Option PyDec) (r : BRow) :
    (table_row storedAmt r).tick = r.tick := rfl

theorem table_row_address (storedAmt : String → Option PyDec) (r : BRow) :
    (table_row storedAmt r).address = r.address := rfl

theorem ledger_entry_table_eq (decode : String → String) (storedAmt : String → Option PyDec)
    (r r' : BRow) (ht : r.tick = r'.tick) (ha : r.address = r'.address)
    (hn : r.credit.toRat - r.debit.toRat = r'.credit.toRat - r'.debit.toRat) :
    ledger_entry decode (table_row storedAmt r) = ledger_entry decode (table_row storedAmt r') := by
  unfold ledger_entry table_row
  simp only [ht, ha]
  have hfmt : format_decimal
      (((r.credit.sub r.debit).add ((storedAmt (r'.tick ++ "_" ++ r'.address)).getD
        PyDec.zero)).normalize) =
      format_decimal
      (((r'.credit.sub r'.debit).add ((storedAmt (r'.tick ++ "_" ++ r'.address)).getD
        PyDec.zero)).normalize) := by
    apply format_decimal_congr
    rw [toRat_normalize, toRat_normalize, toRat_add, toRat_add, toRat_sub, toRat_sub, hn]
  rw [hfmt]

/-- Field facts of every row produced by the balance fold, inherited from
the contributing operation. -/
theorem rows_fields (l : List SrcOp)
    (hfields : ∀ o ∈ l, o.valid = true →
      ',' ∉ o.tick.data ∧ '_' ∉ o.tick.data ∧ '\\' ∉ o.tick.data ∧
        ',' ∉ o.creator.data ∧ ',' ∉ o.destination.data) :
    ∀ r ∈ update_src20_balances l,
      ',' ∉ r.tick.data ∧ '_' ∉ r.tick.data ∧ '\\' ∉ r.tick.data ∧ ',' ∉ r.address.data := by
  intro r hr
  obtain ⟨o, ho, htch⟩ := update_origin l r hr
  rcases htch with ⟨hv, _, hk⟩ | ⟨hv, _, hk | hk⟩ <;>
    obtain ⟨h1, h2, h3, h4, h5⟩ := hfields o ho hv
  · have htick : r.tick = o.tick := congrArg (fun p => p.1) hk
    have haddr : r.address = o.destination := congrArg (fun p => p.2.2) hk
    rw [htick, haddr]
    exact ⟨h1, h2, h3, h5⟩
  · have htick : r.tick = o.tick := congrArg (fun p => p.1) hk
    have haddr : r.address = o.creator := congrArg (fun p => p.2.2) hk
    rw [htick, haddr]
    exact ⟨h1, h2, h3, h4⟩
  · have htick : r.tick = o.tick := congrArg (fun p => p.1) hk
    have haddr : r.address = o.destination := congrArg (fun p => p.2.2) hk
    rw [htick, haddr]
    exact ⟨h1, h2, h3, h5⟩

/-- Within one fold result, the tick determines the tick hash when the
contributing operations agree on it. -/
theorem rows_th_functional (l : List SrcOp)
    (hth : ∀ o ∈ l, ∀ o' ∈ l, o.valid = true → o'.valid = true →
      o.tick = o'.tick → o.tick_hash = o'.tick_hash) :
    ∀ r ∈ update_src20_balances l, ∀ r' ∈ update_src20_balances l,
      r.tick = r'.tick → r.tick_hash = r'.tick_hash := by
  intro r hr r' hr' htick
  obtain ⟨o, ho, htch⟩ := update_origin l r hr
  obtain ⟨o', ho', htch'⟩ := update_origin l r' hr'
  have hfacts : o.valid = true ∧ r.tick = o.tick ∧ r.tick_hash = o.tick_hash := by
    rcases htch with ⟨hv, _, hk⟩ | ⟨hv, _, hk | hk⟩ <;>
      exact ⟨hv, congrArg (fun p => p.1) hk, congrArg (fun p => p.2.1) hk⟩
  have hfacts' : o'.valid = true ∧ r'.tick = o'.tick ∧ r'.tick_hash = o'.tick_hash := by
    rcases htch' with ⟨hv, _, hk⟩ | ⟨hv, _, hk | hk⟩ <;>
      exact ⟨hv, congrArg (fun p => p.1) hk, congrArg (fun p => p.2.1) hk⟩
  rw [hfacts.2.2, hfacts'.2.2]
  exact hth o ho o' ho' hfacts.1 hfacts'.1
    (by rw [← hfacts.2.1, ← hfacts'.2.1, htick])

/-- Rows with equal keys in a nodup-keyed list are the same row. -/
theorem row_eq_of_key_eq {rows : List BRow} (hnd : keysNodup rows) {r r' : BRow}
    (hr : r ∈ rows) (hr' : r' ∈ rows) (hk : rowKey r = rowKey r') : r = r' :=
  List.inj_on_of_nodup_map hnd hr hr' hk

/-- Entries of one fold are entries of any permuted fold: the matching row
exists, shares the key, and accumulates the same net change. -/
theorem entries_subset (decode : String → String) (storedAmt : String → Option PyDec)
    (l₁ l₂ : List SrcOp) (hperm : l₁.Perm l₂) (s : List Char)
    (hs : s ∈ (update_src20_balances l₁).map
      fun r => ledger_entry decode (table_row storedAmt r)) :
    s ∈ (update_src20_balances l₂).map
      fun r => ledger_entry decode (table_row storedAmt r) := by
  obtain ⟨r, hr, hsr⟩ := List.mem_map.mp hs
  have hfind₁ : findRow (update_src20_balances l₁) (rowKey r) = some r :=
    findRow_of_mem _ (update_keysNodup l₁) r hr
  have hpres₁ : (findRow (update_src20_balances l₁) (rowKey r)).isSome = true := by
    rw [hfind₁]; rfl
  have hpres₂ : (findRow (update_src20_balances l₂) (rowKey r)).isSome = true := by
    rw [update_presence]
    obtain ⟨o, ho, ht⟩ := (update_presence l₁ (rowKey r)).1 hpres₁
    exact ⟨o, hperm.subset ho, ht⟩
  obtain ⟨r', hfind₂⟩ := Option.isSome_iff_exists.mp hpres₂
  obtain ⟨hr'mem, hr'key⟩ := findRow_mem _ _ _ hfind₂
  have htick : r.tick = r'.tick := by
    have := congrArg (fun p => p.1) hr'key
    exact this.symm
  have haddr : r.address = r'.address := by
    have := congrArg (fun p => p.2.2) hr'key
    exact this.symm
  have hnet : r.credit.toRat - r.debit.toRat = r'.credit.toRat - r'.debit.toRat := by
    have h₁ : netRat (update_src20_balances l₁) (rowKey r) =
        r.credit.toRat - r.debit.toRat := by
      unfold netRat
      rw [hfind₁]
    have h₂ : netRat (update_src20_balances l₂) (rowKey r) =
        r'.credit.toRat - r'.debit.toRat := by
      unfold netRat
      rw [hfind₂]
    have hsum : netRat (update_src20_balances l₁) (rowKey r) =
        netRat (update_src20_balances l₂) (rowKey r) := by
      rw [update_netRat, update_netRat]
      exact (hperm.map fun o => contribRat o (rowKey r)).sum_eq
    rw [← h₁, ← h₂, hsum]
  refine List.mem_map.mpr ⟨r', hr'mem, ?_⟩
  rw [← hsr]
  exact (ledger_entry_table_eq decode storedAmt r r' htick haddr hnet).symm

theorem entries_nodup (decode : String → String) (storedAmt : String → Option PyDec)
    (l : List SrcOp)
    (hfields : ∀ o ∈ l, o.valid = true →
      ',' ∉ o.tick.data ∧ '_' ∉ o.tick.data ∧ '\\' ∉ o.tick.data ∧
        ',' ∉ o.creator.data ∧ ',' ∉ o.destination.data)
    (hth : ∀ o ∈ l, ∀ o' ∈ l, o.valid = true → o'.valid = true →
      o.tick = o'.tick → o.tick_hash = o'.tick_hash) :
    ((update_src20_balances l).map
      fun r => ledger_entry decode (table_row storedAmt r)).Nodup := by
  apply List.Nodup.map_on ?_ (List.Nodup.of_map rowKey (update_keysNodup l))
  intro r hr r' hr' heq
  obtain ⟨hc, hu, hb, hca⟩ := rows_fields l hfields r hr
  obtain ⟨hc', hu', hb', hca'⟩ := rows_fields l hfields r' hr'
  rw [ledger_entry_no_escape decode (table_row storedAmt r) hb,
    ledger_entry_no_escape decode (table_row storedAmt r') hb'] at heq
  simp only [List.append_assoc, List.cons_append] at heq
  obtain ⟨ht, hrest⟩ := append_sep_inj _ _ _ _ hc hc' heq
  obtain ⟨ha, _⟩ := append_sep_inj _ _ _ _ hca hca' hrest
  have htick : r.tick = r'.tick := str_ext ht
  have haddr : r.address = r'.address := str_ext ha
  have hth' : r.tick_hash = r'.tick_hash := rows_th_functional l hth r hr r' hr' htick
  exact row_eq_of_key_eq (update_keysNodup l) hr hr'
    (by unfold rowKey; rw [htick, haddr, hth'])

theorem entry_keys_nodup (decode : String → String) (storedAmt : String → Option PyDec)
    (l : List SrcOp)
    (hfields : ∀ o ∈ l, o.valid = true →
      ',' ∉ o.tick.data ∧ '_' ∉ o.tick.data ∧ '\\' ∉ o.tick.data ∧
        ',' ∉ o.creator.data ∧ ',' ∉ o.destination.data)
    (hth : ∀ o ∈ l, ∀ o' ∈ l, o.valid = true → o'.valid = true →
      o.tick = o'.tick → o.tick_hash = o'.tick_hash) :
    (((update_src20_balances l).map
      fun r => ledger_entry decode (table_row storedAmt r)).map ledger_sort_key).Nodup := by
  rw [List.map_map]
  apply List.Nodup.map_on ?_ (List.Nodup.of_map rowKey (update_keysNodup l))
  intro r hr r' hr' heq
  obtain ⟨hc, hu, hb, hca⟩ := rows_fields l hfields r hr
  obtain ⟨hc', hu', hb', hca'⟩ := rows_fields l hfields r' hr'
  have hk : ledger_sort_key (ledger_entry decode (table_row storedAmt r)) =
      r.tick.data ++ '_' :: r.address.data := by
    rw [ledger_entry_no_escape decode (table_row storedAmt r) hb]
    exact ledger_sort_key_sep _ _ _ hc hca
  have hk' : ledger_sort_key (ledger_entry decode (table_row storedAmt r')) =
      r'.tick.data ++ '_' :: r'.address.data := by
    rw [ledger_entry_no_escape decode (table_row storedAmt r') hb']
    exact ledger_sort_key_sep _ _ _ hc' hca'
  simp only [Function.comp] at heq
  rw [hk, hk'] at heq
  obtain ⟨ht, ha⟩ := append_sep_inj _ _ _ _ hu hu' heq
  have htick : r.tick = r'.tick := str_ext ht
  have haddr : r.address = r'.address := str_ext ha
  have hth' : r.tick_hash = r'.tick_hash := rows_th_functional l hth r hr r' hr' htick
  exact row_eq_of_key_eq (update_keysNodup l) hr hr'
    (by unfold rowKey; rw [htick, haddr, hth'])

/-- Claim C5 part 1: the canonical ledger string is exactly the
`tick,address,amt` entries sorted by `tick ∥ "_" ∥ address`. -/
theorem process_balance_updates_spec (decode : String → String) (rows : List BRow)
    (h : ∀ r ∈ rows, ',' ∉ r.tick.data ∧ ',' ∉ r.address.data ∧ '\\' ∉ r.tick.data) :
    process_balance_updates decode rows =
      ⟨joinChar ';' ((sortByKey spec_ledger_key rows).map (ledger_entry decode))⟩ := by
  unfold process_balance_updates
  dsimp only
  rw [sortByKey_map]
  rw [sortByKey_congr (fun a => ledger_sort_key (ledger_entry decode a)) spec_ledger_key rows ?_]
  intro r hr
  obtain ⟨hc, hca, hb⟩ := h r hr
  show ledger_sort_key (ledger_entry decode r) = spec_ledger_key r
  rw [ledger_entry_no_escape decode r hb]
  unfold spec_ledger_key
  exact ledger_sort_key_sep _ _ _ hc hca

theorem ledger_string_perm_invariant (decode : String → String)
    (storedAmt : String → Option PyDec) (l₁ l₂ : List SrcOp) (hperm : l₁.Perm l₂)
    (hfields : ∀ o ∈ l₁, o.valid = true →
      ',' ∉ o.tick.data ∧ '_' ∉ o.tick.data ∧ '\\' ∉ o.tick.data ∧
        ',' ∉ o.creator.data ∧ ',' ∉ o.destination.data)
    (hth : ∀ o ∈ l₁, ∀ o' ∈ l₁, o.valid = true → o'.valid = true →
      o.tick = o'.tick → o.tick_hash = o'.tick_hash) :
    process_balance_updates decode
        (update_balance_table storedAmt (update_src20_balances l₁)) =
      process_balance_updates decode
        (update_balance_table storedAmt (update_src20_balances l₂)) := by
  have hfields₂ : ∀ o ∈ l₂, o.valid = true →
      ',' ∉ o.tick.data ∧ '_' ∉ o.tick.data ∧ '\\' ∉ o.tick.data ∧
        ',' ∉ o.creator.data ∧ ',' ∉ o.destination.data :=
    fun o ho => hfields o (hperm.mem_iff.mpr ho)
  have hth₂ : ∀ o ∈ l₂, ∀ o' ∈ l₂, o.valid = true → o'.valid = true →
      o.tick = o'.tick → o.tick_hash = o'.tick_hash :=
    fun o ho o' ho' => hth o (hperm.mem_iff.mpr ho) o' (hperm.mem_iff.mpr ho')
  have hnd₁ := entries_nodup decode storedAmt l₁ hfields hth
  have hnd₂ := entries_nodup decode storedAmt l₂ hfields₂ hth₂
  have hEperm : ((update_src20_balances l₁).map
      fun r => ledger_entry decode (table_row storedAmt r)).Perm
      ((update_src20_balances l₂).map
      fun r => ledger_entry decode (table_row storedAmt r)) := by
    rw [List.perm_ext_iff_of_nodup hnd₁ hnd₂]
    intro s
    exact ⟨entries_subset decode storedAmt l₁ l₂ hperm s,
      entries_subset decode storedAmt l₂ l₁ hperm.symm s⟩
  have hkeys₁ := entry_keys_nodup decode storedAmt l₁ hfields hth
  have hsort : sortByKey ledger_sort_key ((update_src20_balances l₁).map
      fun r => ledger_entry decode (table_row storedAmt r)) =
      sortByKey ledger_sort_key ((update_src20_balances l₂).map
      fun r => ledger_entry decode (table_row storedAmt r)) := by
    apply sorted_perm_eq ledger_sort_key
    · exact (sortByKey_perm _ _).trans (hEperm.trans (sortByKey_perm _ _).symm)
    · exact sortByKey_sorted _ _
    · exact sortByKey_sorted _ _
    · exact (List.Perm.nodup_iff ((sortByKey_perm ledger_sort_key _).map ledger_sort_key)).mpr
        hkeys₁
  unfold process_balance_updates update_balance_table
  dsimp only
  rw [List.map_map, List.map_map]
  rw [show (ledger_entry decode ∘ table_row storedAmt) =
    (fun r => ledger_entry decode (table_row storedAmt r)) from rfl]
  rw [hsort]

/-! ## Base62 round-trip -/

theorem base62_index_getD : ∀ k, k < 62 →
    base62Alphabet.indexOf (base62Alphabet.getD k '0') = k := by
  decide

theorem val62_append (l : List Char) (c : Char) :
    (l ++ [c]).foldl (fun acc ch => acc * 62 + base62Alphabet.indexOf ch) 0 =
      (l.foldl (fun acc ch => acc * 62 + base62Alphabet.indexOf ch) 0) * 62 +
        base62Alphabet.indexOf c := by
  rw [List.foldl_append]
  rfl

theorem base62Aux_value :
    ∀ (fuel n : Nat), n ≤ fuel →
      ((base62Aux fuel n).reverse.foldl
        (fun acc ch => acc * 62 + base62Alphabet.indexOf ch) 0) = n := by
  intro fuel
  induction fuel with
  | zero =>
    intro n hn
    obtain rfl : n = 0 := by omega
    rfl
  | succ fuel ih =>
    intro n hn
    unfold base62Aux
    by_cases h0 : n = 0
    · rw [if_pos h0, h0]
      rfl
    · rw [if_neg h0]
      rw [List.reverse_cons, val62_append]
      have hdiv : n / 62 ≤ fuel := by
        have : n / 62 < n := Nat.div_lt_self (by omega) (by norm_num)
        omega
      rw [ih (n / 62) hdiv, base62_index_getD (n % 62) (Nat.mod_lt n (by norm_num))]
      omega

theorem base62_roundtrip (n : Nat) : base62Value (base62_encode n) = n := by
  unfold base62_encode base62Value
  by_cases h0 : n = 0
  · rw [if_pos h0, h0]
    decide
  · rw [if_neg h0]
    exact base62Aux_value (n + 1) n (by omega)

/-! ## Claim theorems -/

/-- C1 (amended).  The scientific-notation exclusion in `check_format`
operates at JSON-parse level: a numeric field given as an *unquoted JSON
number literal* containing `e`/`E` makes `parse_no_sci_float` raise, and
`check_format` returns `None`, at every block height.  (As stated, the
claim is false: a numeric field that is a JSON *string* such as `"1e3"` is
parsed by `Decimal` and accepted at heights at or above the p2wsh
activation — see the counterexample.) -/
theorem claim_C1 (p2wshStart : Nat) (tickSet : List Char) (rd : SrcRawDict) (h : Nat)
    (hf : (∃ lit, rd.maxr = some (RawNum.rfloat lit) ∧ 'e' ∈ (strLower lit).data) ∨
      (∃ lit, rd.limr = some (RawNum.rfloat lit) ∧ 'e' ∈ (strLower lit).data) ∨
      (∃ lit, rd.amtr = some (RawNum.rfloat lit) ∧ 'e' ∈ (strLower lit).data)) :
    check_format_json p2wshStart tickSet rd h = none := by
  unfold check_format_json json_loads_hooked
  rcases hf with ⟨lit, hml, he⟩ | ⟨lit, hml, he⟩ | ⟨lit, hml, he⟩
  · rw [hml]
    simp [hookField, hookVal, parse_no_sci_float, he]
  · rw [hml]
    cases hm : hookField rd.maxr with
    | none => simp [Option.bind, hm]
    | some v => simp [Option.bind, hm, hookField, hookVal, parse_no_sci_float, he]
  · rw [hml]
    cases hm : hookField rd.maxr with
    | none => simp [Option.bind, hm]
    | some v =>
      cases hl : hookField rd.limr with
      | none => simp [Option.bind, hm, hl]
      | some w => simp [Option.bind, hm, hl, hookField, hookVal, parse_no_sci_float, he]

/-- C1 counterexample.  The claim as stated — a numeric field that is a
*string* containing `'e'` makes `check_format` return `None` at every
height — is false: with `amt = "1e3"` (a JSON string) at a height at or
above the p2wsh activation, `Decimal("1e3")` parses to `1000`, which is in
range, and the payload is returned, not `None`. -/
theorem claim_C1_counterexample :
    (check_format_json 100 ['a', 'b']
      { p := "src-20", hasOp := true, tick := some "ab",
        amtr := some (RawNum.rstr "1e3") } 100).isSome = true := by
  decide

/-- C1 witness: a payload whose `amt` is the unquoted JSON float literal
`1e3` is excluded at a height at or above the p2wsh activation. -/
theorem claim_C1_witness :
    check_format_json 100 ['a', 'b']
      { p := "src-20", hasOp := true, tick := some "ab",
        amtr := some (RawNum.rfloat "1e3") } 100 = none :=
  claim_C1 100 ['a', 'b'] _ 100 (Or.inr (Or.inr ⟨"1e3", rfl, by decide⟩))

/-- C5.  The canonical ledger string consists of one `tick,address,amt`
entry per mutated balance row, joined with `;` and sorted by
`tick ∥ "_" ∥ address` (part 1, for ticks and addresses without `,` and
ticks without `\`), where `format_decimal` renders a zero amount as `"0"`
(part 2), an integer amount without a decimal point (part 3), and strips
all trailing zeros after a decimal point (part 4). -/
theorem claim_C5 :
    (∀ (decode : String → String) (rows : List BRow),
      (∀ r ∈ rows, ',' ∉ r.tick.data ∧ ',' ∉ r.address.data ∧ '\\' ∉ r.tick.data) →
      process_balance_updates decode rows =
        ⟨joinChar ';' ((sortByKey spec_ledger_key rows).map (ledger_entry decode))⟩) ∧
    (∀ d : PyDec, d.mant = 0 → format_decimal d = "0") ∧
    (∀ d : PyDec, (∃ n : ℤ, d.toRat = (n : ℚ)) → '.' ∉ (format_decimal d).data) ∧
    (∀ d : PyDec, '.' ∈ (format_decimal d).data →
      (format_decimal d).data.getLast? ≠ some '0') :=
  ⟨process_balance_updates_spec, format_decimal_of_mant_zero,
    format_decimal_integral, format_decimal_no_trailing_zero⟩

/-- C5 witness: the canonical string of a concrete two-row batch equals its
spec-side rendering. -/
theorem claim_C5_witness :
    process_balance_updates id
        [{ tick := "bb", tick_hash := "h", address := "x",
           net_change := ⟨15, -1⟩, original_amt := ⟨0, 0⟩ },
         { tick := "aa", tick_hash := "h", address := "y",
           net_change := ⟨2, 0⟩, original_amt := ⟨3, 0⟩ }] =
      ⟨joinChar ';' ((sortByKey spec_ledger_key
        [{ tick := "bb", tick_hash := "h", address := "x",
           net_change := ⟨15, -1⟩, original_amt := ⟨0, 0⟩ },
         { tick := "aa", tick_hash := "h", address := "y",
           net_change := ⟨2, 0⟩, original_amt := ⟨3, 0⟩ }]).map (ledger_entry id))⟩ :=
  claim_C5.1 id _ (by decide)

/-- C6.  The canonical ledger string (hence the ledger hash) is a function
of the *set* of valid SRC-20 effects in the block: permuting the
processed-in-block list does not change the output of folding the balance
updates and serializing them, once the canonical sort is applied.  The
hypotheses reflect the system's tick discipline: within the block the tick
determines the tick hash, and ticks/addresses avoid the separator
characters of the canonical string. -/
theorem claim_C6 (decode : String → String) (storedAmt : String → Option PyDec)
    (l₁ l₂ : List SrcOp) (hperm : l₁.Perm l₂)
    (hfields : ∀ o ∈ l₁, o.valid = true →
      ',' ∉ o.tick.data ∧ '_' ∉ o.tick.data ∧ '\\' ∉ o.tick.data ∧
        ',' ∉ o.creator.data ∧ ',' ∉ o.destination.data)
    (hth : ∀ o ∈ l₁, ∀ o' ∈ l₁, o.valid = true → o'.valid = true →
      o.tick = o'.tick → o.tick_hash = o'.tick_hash) :
    process_balance_updates decode
        (update_balance_table storedAmt (update_src20_balances l₁)) =
      process_balance_updates decode
        (update_balance_table storedAmt (update_src20_balances l₂)) :=
  ledger_string_perm_invariant decode storedAmt l₁ l₂ hperm hfields hth

/-- C6 witness: three valid operations in one block, in two input orders,
produce the same canonical ledger string. -/
theorem claim_C6_witness :
    ([{ op := "MINT", tick := "aa", tick_hash := "h1", creator := "m", destination := "x",
        amt := some ⟨5, 0⟩, valid := true },
      { op := "TRANSFER", tick := "aa", tick_hash := "h1", creator := "x", destination := "y",
        amt := some ⟨2, 0⟩, valid := true },
      { op := "MINT", tick := "bb", tick_hash := "h2", creator := "m", destination := "x",
        amt := some ⟨7, 0⟩, valid := true }] : List SrcOp).Perm
      [{ op := "MINT", tick := "bb", tick_hash := "h2", creator := "m", destination := "x",
         amt := some ⟨7, 0⟩, valid := true },
       { op := "MINT", tick := "aa", tick_hash := "h1", creator := "m", destination := "x",
         amt := some ⟨5, 0⟩, valid := true },
       { op := "TRANSFER", tick := "aa", tick_hash := "h1", creator := "x", destination := "y",
         amt := some ⟨2, 0⟩, valid := true }] ∧
    process_balance_updates id (update_balance_table (fun _ => none)
      (update_src20_balances
        [{ op := "MINT", tick := "aa", tick_hash := "h1", creator := "m", destination := "x",
           amt := some ⟨5, 0⟩, valid := true },
         { op := "TRANSFER", tick := "aa", tick_hash := "h1", creator := "x", destination := "y",
           amt := some ⟨2, 0⟩, valid := true },
         { op := "MINT", tick := "bb", tick_hash := "h2", creator := "m", destination := "x",
           amt := some ⟨7, 0⟩, valid := true }])) =
    process_balance_updates id (update_balance_table (fun _ => none)
      (update_src20_balances
        [{ op := "MINT", tick := "bb", tick_hash := "h2", creator := "m", destination := "x",
           amt := some ⟨7, 0⟩, valid := true },
         { op := "MINT", tick := "aa", tick_hash := "h1", creator := "m", destination := "x",
           amt := some ⟨5, 0⟩, valid := true },
         { op := "TRANSFER", tick := "aa", tick_hash := "h1", creator := "x", destination := "y",
           amt := some ⟨2, 0⟩, valid := true }]) ) :=
  ⟨by decide, claim_C6 id (fun _ => none) _ _ (by decide) (by decide) (by decide)⟩

/-- C7 (amended).  At heights at or above the p2wsh activation, a string
failing the charset/length validation makes `decode_base64` return
`(None, None)` — not `(None, invalid)` as the claim states (see the
counterexample).  At heights at or below the base64-repair cutoff (which
sits below the p2wsh activation), the string is padded with up to three
`'='` to a length divisible by four and decoded with `base64.b64decode`;
decode failure returns `(None, None)`. -/
theorem claim_C7 (bdec bdec2 bdec3 : String → Option (List Nat))
    (p2wshStart stopRepair : Nat) (s : String) (block_index : Nat) :
    (p2wshStart ≤ block_index → check_valid_base64_string s = false →
      decode_base64 bdec bdec2 bdec3 p2wshStart stopRepair s block_index = (none, none)) ∧
    (block_index ≤ stopRepair → stopRepair < p2wshStart →
      ∃ padding : List Char, (∀ c ∈ padding, c = '=') ∧ padding.length ≤ 3 ∧
        (s.length + padding.length) % 4 = 0 ∧
        decode_base64 bdec bdec2 bdec3 p2wshStart stopRepair s block_index =
          (match bdec (s ++ ⟨padding⟩) with
           | some image_data => (some image_data, some true)
           | none => (none, none))) := by
  constructor
  · intro hge hval
    unfold decode_base64
    rw [if_pos ⟨hge, by simp [hval]⟩]
  · intro hle hlt
    unfold decode_base64
    rw [if_neg (fun hc => absurd hc.1 (by omega))]
    rw [if_pos hle]
    unfold decode_base64_with_repair
    dsimp only
    by_cases hm : s.length % 4 ≠ 0
    · rw [if_pos hm]
      refine ⟨List.replicate (4 - s.length % 4) '=', ?_, ?_, ?_, ?_⟩
      · intro c hc
        exact (List.eq_of_mem_replicate hc)
      · rw [List.length_replicate]
        omega
      · rw [List.length_replicate]
        omega
      · rfl
    · rw [if_neg hm]
      have hm0 : s.length % 4 = 0 := not_ne_iff.mp hm
      refine ⟨[], by simp, by simp, by simpa using hm0, ?_⟩
      have hse : s ++ (⟨[]⟩ : String) = s := by
        cases s with
        | mk data => exact str_ext (by simp)
      rw [hse]

/-- C7 counterexample.  The claim predicts a return of `(None, invalid)`
— i.e. a data component `None` and a `False` validity flag — for an
invalid string at a p2wsh-active height; `decode_base64` actually returns
`(None, None)`: the validity component is `None`, not `False`. -/
theorem claim_C7_counterexample :
    decode_base64 (fun _ => none) (fun _ => none) (fun _ => none) 10 5 "a" 10 =
      (none, none) ∧ (none : Option Bool) ≠ some false := by
  exact ⟨by decide, by decide⟩

/-- C7 witness: at a height at or below the repair cutoff, `"abcde"` is
padded with three `'='` and handed to the decoder. -/
theorem claim_C7_witness :
    ∃ padding : List Char, (∀ c ∈ padding, c = '=') ∧ padding.length ≤ 3 ∧
      (("abcde" : String).length + padding.length) % 4 = 0 ∧
      decode_base64 (fun t => some [t.length]) (fun _ => none) (fun _ => none) 10 5 "abcde" 4 =
        (match (fun t : String => some [t.length]) ("abcde" ++ (⟨padding⟩ : String)) with
         | some image_data => (some image_data, some true)
         | none => (none, none)) :=
  (claim_C7 (fun t => some [t.length]) (fun _ => none) (fun _ => none) 10 5 "abcde" 4).2
    (by decide) (by decide)

/-- Helper: the range gate accepts only finite values between 0 and
`2^64 - 1`. -/
theorem rangeGate_bounds (pd : PParsed) (d : PyDec) (h : rangeGate pd = some d) :
    PyDec.ble PyDec.zero d = true ∧ PyDec.ble d uint64Max = true := by
  cases pd with
  | num d' =>
    simp only [rangeGate] at h
    by_cases hc : PyDec.ble PyDec.zero d' = true ∧ PyDec.ble d' uint64Max = true
    · rw [if_pos hc] at h
      have hd := Option.some.inj h
      subst hd
      exact hc
    · rw [if_neg hc] at h
      exact absurd h (by simp)
  | nan => exact absurd h (by simp [rangeGate])
  | inf => exact absurd h (by simp [rangeGate])
  | ninf => exact absurd h (by simp [rangeGate])

/-- C8.  `check_format` accepts a checked numeric field only when it is a
string, int, float, or Decimal whose (non-NaN: the accepted value is a
finite `PyDec`) value lies in `[0, 2^64 - 1]` (part 1); `amt = 2^64 - 1`
is accepted and `amt = 2^64` is rejected through the full `check_format`
(parts 2 and 3, at heights below and at/above the p2wsh activation); and
for string values at heights below the p2wsh activation every character
other than ASCII digits and `'.'` is stripped before `Decimal` parsing
(part 4). -/
theorem claim_C8 :
    (∀ (p2wshStart block_index : Nat) (v : PyVal) (d : PyDec),
      check_format_value p2wshStart block_index v = some d →
        ((∃ s, v = PyVal.vstr s) ∨ (∃ n, v = PyVal.vint n) ∨
          (∃ pd, v = PyVal.vfloat pd) ∨ (∃ pd, v = PyVal.vdec pd)) ∧
        PyDec.ble PyDec.zero d = true ∧ PyDec.ble d uint64Max = true) ∧
    (∀ h : Nat, (check_format 100 ['a', 'b']
      { p := "src-20", hasOp := true, tick := some "ab",
        amtv := some (PyVal.vstr "18446744073709551615") } h).isSome = true) ∧
    (∀ h : Nat, check_format 100 ['a', 'b']
      { p := "src-20", hasOp := true, tick := some "ab",
        amtv := some (PyVal.vstr "18446744073709551616") } h = none) ∧
    (∀ (p2wshStart block_index : Nat) (s : String), block_index < p2wshStart → s ≠ "" →
      check_format_value p2wshStart block_index (PyVal.vstr s) =
        (match parseDecimal (filterDigitsDot s) with
         | none => none
         | some pd => rangeGate pd)) := by
  refine ⟨?_, ?_, ?_, ?_⟩
  · intro p2 bi v d hacc
    cases v with
    | vstr s =>
      refine ⟨Or.inl ⟨s, rfl⟩, ?_⟩
      unfold check_format_value at hacc
      dsimp only at hacc
      split at hacc
      · exact absurd hacc (by simp)
      · exact rangeGate_bounds _ d hacc
    | vint n =>
      have hacc' : rangeGate (PParsed.num (PyDec.ofInt n)) = some d := hacc
      exact ⟨Or.inr (Or.inl ⟨n, rfl⟩), rangeGate_bounds _ d hacc'⟩
    | vfloat pd =>
      have hacc' : rangeGate pd = some d := hacc
      exact ⟨Or.inr (Or.inr (Or.inl ⟨pd, rfl⟩)), rangeGate_bounds _ d hacc'⟩
    | vdec pd =>
      have hacc' : rangeGate pd = some d := hacc
      exact ⟨Or.inr (Or.inr (Or.inr ⟨pd, rfl⟩)), rangeGate_bounds _ d hacc'⟩
    | vnone => exact absurd hacc (by simp [check_format_value])
    | vother => exact absurd hacc (by simp [check_format_value])
  · intro h
    have hval : check_format_value 100 h (PyVal.vstr "18446744073709551615") =
        some ⟨(2 : Int) ^ 64 - 1, 0⟩ := by
      unfold check_format_value
      dsimp only
      by_cases hh : 100 ≤ h
      · rw [if_pos hh]
        decide
      · rw [if_neg hh]
        decide
    unfold check_format
    dsimp only
    simp only [Option.getD_some, hval]
    simp
    decide
  · intro h
    have hval : check_format_value 100 h (PyVal.vstr "18446744073709551616") = none := by
      unfold check_format_value
      dsimp only
      by_cases hh : 100 ≤ h
      · rw [if_pos hh]
        decide
      · rw [if_neg hh]
        decide
    unfold check_format
    dsimp only
    simp only [Option.getD_some, hval]
    simp
    decide
  · intro p2 bi s hlt hs
    unfold check_format_value
    dsimp only
    rw [if_neg (by omega), if_pos hs]

/-- C8 witness: the boundary value `2^64 - 1` given as the `amt` string is
accepted at a concrete height. -/
theorem claim_C8_witness :
    (check_format 100 ['a', 'b']
      { p := "src-20", hasOp := true, tick := some "ab",
        amtv := some (PyVal.vstr "18446744073709551615") } 100).isSome = true :=
  claim_C8.2.1 100

/-- C9.  With no upstream cpid, the derived cpid is the first 20
characters of the base62 encoding (alphabet `0-9a-zA-Z`, most significant
digit first) of the digest of `tx_hash ∥ "|" ∥ str(block_height)` read as
a big-endian integer; and the base62 encoding is faithful: evaluating its
digits most-significant-first recovers the integer, so the 20-character
digest is prefix-stable with respect to the full encoding.  The SHA-256
digest itself is the stdlib call `hashlib.sha256`, taken as the parameter
`sha`. -/
theorem claim_C9 (sha : String → List Nat) (block_index : Nat) (tx_hash : String) :
    resolved_cpid sha none block_index tx_hash =
      some ((base62_encode (bytesBE (sha (tx_hash ++ "|" ++ intStr block_index)))).take 20) ∧
    base62Value (base62_encode (bytesBE (sha (tx_hash ++ "|" ++ intStr block_index)))) =
      bytesBE (sha (tx_hash ++ "|" ++ intStr block_index)) := by
  constructor
  · unfold resolved_cpid get_cpid create_base62_hash
    rw [if_neg (by norm_num)]
  · exact base62_roundtrip _

/-- C10.  The classification tail of `parse_stamp` never leaves both
`is_btc_stamp` and `is_cursed` set, and the stamp number is drawn from the
`"stamp"` counter exactly when `is_btc_stamp` is truthy, from the
`"cursed"` counter exactly when `is_cursed` is truthy and `is_btc_stamp`
is not, and not at all otherwise. -/
theorem claim_C10 (invalidSuffixes : List String) (counters : String → Int)
    (inp : StampParseInput) (out : StampParseOut)
    (h : parse_stamp_classify invalidSuffixes counters inp = some out) :
    ¬(flagTruthy out.is_btc_stamp = true ∧ flagTruthy out.is_cursed = true) ∧
    out.stamp = (if flagTruthy out.is_btc_stamp then some (counters "stamp")
      else if flagTruthy out.is_cursed then some (counters "cursed") else none) := by
  unfold parse_stamp_classify at h
  by_cases h0 : inp.validSrc20 = true ∧ ¬ inp.checkFormatOk = true
  · rw [if_pos h0] at h
    exact absurd h (by simp)
  · rw [if_neg h0] at h
    dsimp only at h
    repeat' split at h
    all_goals
      obtain rfl := (Option.some.inj h).symm
    all_goals
      refine ⟨by simp [flagTruthy], ?_⟩
    all_goals
      simp_all [flagTruthy]

/-! ## Running-balance lookup totality -/

theorem balances_db_fold_isSome (balanceRow : String → String → String → Option PyDec)
    (tick th : String) (hdb : nonnegBalances balanceRow) :
    ∀ (l : List String) (acc : List (String × PyDec)),
      (l.foldl
        (fun acc? a =>
          acc?.bind fun acc =>
            let total_balance := (balanceRow tick th a).getD PyDec.zero
            if total_balance.mant < 0 then none else some (acc ++ [(a, total_balance)]))
        (some acc)).isSome = true := by
  intro l
  induction l with
  | nil => intro acc; rfl
  | cons a l ih =>
    intro acc
    rw [List.foldl_cons]
    have hnn : ¬ ((balanceRow tick th a).getD PyDec.zero).mant < 0 := by
      cases hrow : balanceRow tick th a with
      | none => simp [PyDec.zero]
      | some d =>
        have := hdb tick th a d hrow
        simp
        omega
    show (List.foldl _
        (if ((balanceRow tick th a).getD PyDec.zero).mant < 0 then none
         else some (acc ++ [(a, (balanceRow tick th a).getD PyDec.zero)])) l).isSome = true
    rw [if_neg hnn]
    exact ih _

theorem grub_isSome (balanceRow : String → String → String → Option PyDec)
    (shadow : List SrcOp) (tick th : String) (addresses : List String)
    (hnd : addresses.Nodup) (hdb : nonnegBalances balanceRow) :
    ∃ lst, get_running_user_balances balanceRow shadow tick th addresses = some lst := by
  unfold get_running_user_balances
  rw [if_neg (by simpa using hnd)]
  apply Option.isSome_iff_exists.mp
  exact balances_db_fold_isSome balanceRow tick th hdb _ _

/-! ## Processor claims -/

/-- A record that is not marked valid contributes nothing to the balance
fold. -/
theorem balance_step_invalid (rows : List BRow) (r : SrcOp) (h : r.valid = false) :
    balance_step rows r = rows := by
  unfold balance_step
  rw [if_neg (by simp [h]), if_neg (by simp [h])]

/-- C4 (amended).  A TRANSFER with a nonzero amount on a tick with an
existing DEPLOY: when the creator's running balance — read from the
in-block shadow list first, then the persistent store — is below `amt`,
the operation gets status `BB`, stays invalid and leaves every balance
unchanged; when `amt` carries more decimal places than the deploy allows,
it gets status `ID` and likewise stays invalid with no balance change;
otherwise it records `creator_new = creator_balance - amt` and
`destination_new = destination_balance + amt` (on the normalized amount).
(The unmodified claim fails on the `ID` path and on `amt = 0`: see the
counterexample.) -/
theorem claim_C4 (db : DbState) (shadow : List SrcOp) (o : SrcOp) (a : PyDec)
    (dl dm : Option PyDec) (dd : Option Nat)
    (hop : strUpper o.op = "TRANSFER")
    (hamt : o.amt = some a) (hnz : a.mant ≠ 0)
    (hdep : get_src20_deploy db.deployRow shadow o.tick = (dl, dm, dd))
    (hdt : optTruthy dl = true ∨ optTruthy dm = true)
    (hdb : nonnegBalances db.balanceRow)
    (hov : o.valid = false) (hbc : o.total_balance_creator = none)
    (hbd : o.total_balance_destination = none) :
    ∃ r, validate_and_process_operation db shadow o = some r ∧
      (if PyDec.blt (transfer_running_balances db shadow o).1 a = true then
        r.status = some "BB" ∧ r.valid = false ∧ r.total_balance_creator = none ∧
          r.total_balance_destination = none ∧ update_src20_balances [r] = []
      else if (dd.getD 18 : Int) < a.normalize.decimalLength then
        r.status = some "ID" ∧ r.valid = false ∧ r.total_balance_creator = none ∧
          r.total_balance_destination = none ∧ update_src20_balances [r] = []
      else
        r.valid = true ∧ r.amt = some a.normalize ∧
          r.total_balance_creator =
            some ((transfer_running_balances db shadow o).1.sub a.normalize) ∧
          r.total_balance_destination =
            some ((transfer_running_balances db shadow o).2.add a.normalize)) := by
  have hfalsy : amtFalsy o = false := by
    unfold amtFalsy
    rw [hamt]
    simp [hnz]
  have hkey : validate_and_process_operation db shadow o = handle_transfer db shadow dd o := by
    unfold validate_and_process_operation
    dsimp only
    rw [hop, hdep]
    rw [if_neg (by simp [hfalsy])]
    rw [if_neg (by
      rintro ⟨h1, h2, _⟩
      rcases hdt with hdt | hdt
      · exact absurd hdt (by simpa using h1)
      · exact absurd hdt (by simpa using h2))]
    rw [if_neg (by decide), if_neg (by decide), if_pos rfl]
  rw [hkey]
  have hndaddr : (if o.creator = o.destination then [o.creator]
      else [o.creator, o.destination]).Nodup := by
    by_cases hcd : o.creator = o.destination
    · rw [if_pos hcd]
      simp
    · rw [if_neg hcd]
      simp [hcd]
  obtain ⟨lst, hlst⟩ := grub_isSome db.balanceRow shadow o.tick o.tick_hash _ hndaddr hdb
  have hbal : transfer_running_balances db shadow o =
      ((balance_lookup lst o.creator).getD PyDec.zero,
       (balance_lookup lst o.destination).getD PyDec.zero) := by
    unfold transfer_running_balances
    dsimp only
    rw [hlst]
  unfold handle_transfer
  rw [hbal]
  dsimp only
  rw [hlst]
  dsimp only
  rw [hamt]
  dsimp only [Option.getD_some]
  by_cases hbb : PyDec.blt ((balance_lookup lst o.creator).getD PyDec.zero) a = true
  · simp only [if_pos hbb]
    refine ⟨set_status_and_log o "BB", rfl, rfl, hov, hbc, hbd, ?_⟩
    unfold update_src20_balances
    rw [List.foldl_cons, balance_step_invalid [] (set_status_and_log o "BB") hov]
    rfl
  · simp only [if_neg hbb]
    by_cases hid : (dd.getD 18 : Int) < a.normalize.decimalLength
    · simp only [if_pos hid]
      refine ⟨set_status_and_log o "ID", rfl, rfl, hov, hbc, hbd, ?_⟩
      unfold update_src20_balances
      rw [List.foldl_cons, balance_step_invalid [] (set_status_and_log o "ID") hov]
      rfl
    · simp only [if_neg hid]
      exact ⟨_, rfl, rfl, rfl, rfl, rfl⟩

/-- C4, divergence from the unamended claim: a TRANSFER of 0.5 whose
creator holds 10 — so the claimed balance condition does not fire — on a
deploy with `dec = 0` is rejected with status `ID` and records no balance,
while the claim promises `creator_new = creator_balance - amt`. -/
theorem claim_C4_counterexample :
    (validate_and_process_operation dbT0 [] opT0).map
        (fun r => (r.status, r.valid, r.total_balance_creator, r.total_balance_destination)) =
      some (some "ID", false, none, none) ∧
    PyDec.blt (transfer_running_balances dbT0 [] opT0).1 ⟨5, -1⟩ = false := by
  decide

theorem claim_C4_witness :
    ∃ r, validate_and_process_operation dbT [] opT = some r ∧
      (if PyDec.blt (transfer_running_balances dbT [] opT).1 ⟨5, 0⟩ = true then
        r.status = some "BB" ∧ r.valid = false ∧ r.total_balance_creator = none ∧
          r.total_balance_destination = none ∧ update_src20_balances [r] = []
      else if ((some 18 : Option Nat).getD 18 : Int) < (⟨5, 0⟩ : PyDec).normalize.decimalLength then
        r.status = some "ID" ∧ r.valid = false ∧ r.total_balance_creator = none ∧
          r.total_balance_destination = none ∧ update_src20_balances [r] = []
      else
        r.valid = true ∧ r.amt = some (⟨5, 0⟩ : PyDec).normalize ∧
          r.total_balance_creator =
            some ((transfer_running_balances dbT [] opT).1.sub (⟨5, 0⟩ : PyDec).normalize) ∧
          r.total_balance_destination =
            some ((transfer_running_balances dbT [] opT).2.add (⟨5, 0⟩ : PyDec).normalize)) :=
  claim_C4 dbT [] opT ⟨5, 0⟩ (some ⟨100, 0⟩) (some ⟨1000, 0⟩) (some 18) (by decide) rfl
    (by decide) (by decide) (Or.inl (by decide))
    (by
      intro t th a d h
      have h' : (some ⟨10, 0⟩ : Option PyDec) = some d := h
      have hd : d = ⟨10, 0⟩ := (Option.some.inj h').symm
      rw [hd]
      decide)
    rfl rfl rfl

/-- C2 (amended).  A MINT with a nonzero amount on a tick whose DEPLOY has
nonzero `max` and `lim`: if the running total already reaches `max` the
mint gets status `OM` and stays invalid; otherwise the amount is clamped
first to the remaining supply `max - total_minted` (status `OMA`), then to
`min(lim, max)` (status `ODL`); if the clamped amount then carries more
decimal places than the deploy allows the mint gets status `ID` and stays
invalid (a path the unamended claim misses — see the counterexample);
otherwise the mint is valid, the new running total is
`total_minted + final amt`, and the destination's running balance is
credited by the final (normalized) amount. -/
theorem claim_C2 (db : DbState) (shadow : List SrcOp) (o : SrcOp) (a lv m : PyDec)
    (dd : Option Nat)
    (hop : strUpper o.op = "MINT")
    (hamt : o.amt = some a) (hnz : a.mant ≠ 0)
    (hdep : get_src20_deploy db.deployRow shadow o.tick = (some lv, some m, dd))
    (hlv : optTruthy (some lv) = true) (hm : optTruthy (some m) = true)
    (hdb : nonnegBalances db.balanceRow)
    (hov : o.valid = false) :
    ∃ r, validate_and_process_operation db shadow o = some r ∧
      (if PyDec.ble m (get_running_mint_total db.totalMinted shadow o.tick) = true then
        r.status = some "OM" ∧ r.valid = false
      else
        let total := get_running_mint_total db.totalMinted shadow o.tick
        let a1 := if PyDec.blt (m.sub total) a = true then m.sub total else a
        let a2 := if PyDec.blt (PyDec.minD lv m) a1 = true then PyDec.minD lv m else a1
        if (dd.getD 18 : Int) < a2.normalize.decimalLength then
          r.status = some "ID" ∧ r.valid = false
        else
          r.valid = true ∧ r.amt = some a2.normalize ∧
            r.total_minted = some (total.add a2.normalize) ∧
            r.total_balance_destination =
              some ((mint_dest_balance db shadow o).add a2.normalize) ∧
            r.status = (if PyDec.blt (PyDec.minD lv m) a1 = true then some "ODL"
              else if PyDec.blt (m.sub total) a = true then some "OMA"
              else o.status)) := by
  have hfalsy : amtFalsy o = false := by
    unfold amtFalsy
    rw [hamt]
    simp [hnz]
  have hkey : validate_and_process_operation db shadow o =
      handle_mint db shadow (some lv) (some m) dd o := by
    unfold validate_and_process_operation
    dsimp only
    rw [hop, hdep]
    rw [if_neg (by simp [hfalsy])]
    rw [if_neg (by
      rintro ⟨h1, _, _⟩
      exact absurd hlv (by simpa using h1))]
    rw [if_neg (by decide), if_pos rfl]
  rw [hkey]
  obtain ⟨lst, hlst⟩ := grub_isSome db.balanceRow shadow o.tick o.tick_hash [o.destination]
    (by simp) hdb
  have hmdb : mint_dest_balance db shadow o =
      (match lst with | [] => PyDec.zero | b :: _ => b.2) := by
    unfold mint_dest_balance
    simp only [hlst]
    cases lst with
    | nil => rfl
    | cons b l => rfl
  unfold handle_mint
  dsimp only
  rw [hamt]
  rw [if_pos (⟨hlv, hm⟩ : optTruthy (some lv) = true ∧ optTruthy (some m) = true)]
  rw [if_pos hm, if_pos hm]
  dsimp only [Option.getD_some]
  by_cases hom : PyDec.ble m (get_running_mint_total db.totalMinted shadow o.tick) = true
  · simp only [if_pos hom]
    exact ⟨set_status_and_log o "OM", rfl, rfl, hov⟩
  · simp only [if_neg hom]
    rw [hlst]
    dsimp only
    by_cases homa :
      PyDec.blt (m.sub (get_running_mint_total db.totalMinted shadow o.tick)) a = true
    · simp only [if_pos homa]
      try dsimp only
      by_cases hodl : PyDec.blt (PyDec.minD lv m)
          (m.sub (get_running_mint_total db.totalMinted shadow o.tick)) = true
      · simp only [if_pos hodl]
        try dsimp only
        by_cases hid : (dd.getD 18 : Int) < (PyDec.minD lv m).normalize.decimalLength
        · simp only [if_pos hid]
          exact ⟨_, rfl, rfl, hov⟩
        · simp only [if_neg hid]
          refine ⟨_, rfl, rfl, rfl, rfl, ?_, rfl⟩
          rw [hmdb]
          cases lst with
          | nil => rfl
          | cons b l => rfl
      · simp only [if_neg hodl]
        try dsimp only
        by_cases hid : (dd.getD 18 : Int) <
            (m.sub (get_running_mint_total db.totalMinted shadow o.tick)).normalize.decimalLength
        · simp only [if_pos hid]
          exact ⟨_, rfl, rfl, hov⟩
        · simp only [if_neg hid]
          refine ⟨_, rfl, rfl, rfl, rfl, ?_, rfl⟩
          rw [hmdb]
          cases lst with
          | nil => rfl
          | cons b l => rfl
    · simp only [if_neg homa]
      try dsimp only
      by_cases hodl : PyDec.blt (PyDec.minD lv m) a = true
      · simp only [if_pos hodl]
        try dsimp only
        by_cases hid : (dd.getD 18 : Int) < (PyDec.minD lv m).normalize.decimalLength
        · simp only [if_pos hid]
          exact ⟨_, rfl, rfl, hov⟩
        · simp only [if_neg hid]
          refine ⟨_, rfl, rfl, rfl, rfl, ?_, rfl⟩
          rw [hmdb]
          cases lst with
          | nil => rfl
          | cons b l => rfl
      · simp only [if_neg hodl]
        try dsimp only
        by_cases hid : (dd.getD 18 : Int) < a.normalize.decimalLength
        · simp only [if_pos hid]
          exact ⟨_, rfl, rfl, hov⟩
        · simp only [if_neg hid]
          refine ⟨_, rfl, rfl, rfl, rfl, ?_, rfl⟩
          rw [hmdb]
          cases lst with
          | nil => rfl
          | cons b l => rfl

/-- C2, divergence from the unamended claim: a MINT of 0.5 on a deploy with
`dec = 0` and ample remaining supply is rejected with status `ID` and mints
nothing, while the claim promises a valid mint crediting the
destination. -/
theorem claim_C2_counterexample :
    (validate_and_process_operation dbM0 [] opM0).map
        (fun r => (r.status, r.valid, r.total_minted, r.total_balance_destination)) =
      some (some "ID", false, none, none) ∧
    PyDec.ble ⟨1000, 0⟩ (get_running_mint_total dbM0.totalMinted [] "kevin") = false := by
  decide

theorem claim_C2_witness :
    ∃ r, validate_and_process_operation dbM [] opM = some r ∧
      (if PyDec.ble ⟨1000, 0⟩ (get_running_mint_total dbM.totalMinted [] opM.tick) = true then
        r.status = some "OM" ∧ r.valid = false
      else
        let total := get_running_mint_total dbM.totalMinted [] opM.tick
        let a1 := if PyDec.blt (PyDec.sub ⟨1000, 0⟩ total) ⟨950, 0⟩ = true then
            PyDec.sub ⟨1000, 0⟩ total else ⟨950, 0⟩
        let a2 := if PyDec.blt (PyDec.minD ⟨100, 0⟩ ⟨1000, 0⟩) a1 = true then
            PyDec.minD ⟨100, 0⟩ ⟨1000, 0⟩ else a1
        if ((some 18 : Option Nat).getD 18 : Int) < a2.normalize.decimalLength then
          r.status = some "ID" ∧ r.valid = false
        else
          r.valid = true ∧ r.amt = some a2.normalize ∧
            r.total_minted = some (total.add a2.normalize) ∧
            r.total_balance_destination =
              some ((mint_dest_balance dbM [] opM).add a2.normalize) ∧
            r.status = (if PyDec.blt (PyDec.minD ⟨100, 0⟩ ⟨1000, 0⟩) a1 = true then some "ODL"
              else if PyDec.blt (PyDec.sub ⟨1000, 0⟩ total) ⟨950, 0⟩ = true then some "OMA"
              else opM.status)) :=
  claim_C2 dbM [] opM ⟨950, 0⟩ ⟨100, 0⟩ ⟨1000, 0⟩ (some 18) (by decide) rfl (by decide)
    (by decide) (by decide) (by decide)
    (by
      intro t th a d h
      have h' : (some ⟨10, 0⟩ : Option PyDec) = some d := h
      have hd : d = ⟨10, 0⟩ := (Option.some.inj h').symm
      rw [hd]
      decide)
    rfl

theorem claim_C10_witness :
    ¬(flagTruthy (⟨some 1, none, some "A12", some 7⟩ : StampParseOut).is_btc_stamp = true ∧
        flagTruthy (⟨some 1, none, some "A12", some 7⟩ : StampParseOut).is_cursed = true) ∧
    (⟨some 1, none, some "A12", some 7⟩ : StampParseOut).stamp =
      (if flagTruthy (⟨some 1, none, some "A12", some 7⟩ : StampParseOut).is_btc_stamp then
        some ((fun _ => (7 : Int)) "stamp")
      else if flagTruthy (⟨some 1, none, some "A12", some 7⟩ : StampParseOut).is_cursed then
        some ((fun _ => (7 : Int)) "cursed")
      else none) :=
  claim_C10 [] (fun _ => (7 : Int)) { ident := "STAMP", cpid := some "A12" }
    ⟨some 1, none, some "A12", some 7⟩ (by decide)

/-! ## C3: single-deploy invariant -/

theorem process_block_eq (db : DbState) (ops : List SrcOp) :
    process_block db ops = ops.foldl (process_step db) (some []) := rfl

theorem process_chain_none (db : DbState) (ops : List SrcOp) :
    ops.foldl (process_step db) none = none := by
  induction ops with
  | nil => rfl
  | cons o ops ih =>
    rw [List.foldl_cons]
    exact ih

theorem get_src20_deploy_eq
    (deployRow : String → Option (Option PyDec × Option PyDec × Option Nat))
    (shadow : List SrcOp) (tick : String) :
    get_src20_deploy deployRow shadow tick =
      (match latestValidDeploy shadow tick with
       | some o => (o.limv, o.maxv, o.decv)
       | none =>
         match deployRow tick with
         | some r => r
         | none => (none, none, none)) := rfl

theorem latestValidDeploy_append (shadow : List SrcOp) (r : SrcOp) (tick : String) :
    latestValidDeploy (shadow ++ [r]) tick =
      if isValidDeployFor tick r = true then some r else latestValidDeploy shadow tick := by
  unfold latestValidDeploy
  rw [List.reverse_append]
  have hsingle : ([r] : List SrcOp).reverse ++ shadow.reverse = r :: shadow.reverse := by simp
  rw [hsingle]
  by_cases hr : isValidDeployFor tick r = true
  · rw [if_pos hr]
    exact List.find?_cons_of_pos _ hr
  · rw [if_neg hr]
    exact List.find?_cons_of_neg _ hr

theorem truthy_deploy_count_append (shadow : List SrcOp) (r : SrcOp) (tick : String) :
    truthy_deploy_count (shadow ++ [r]) tick =
      truthy_deploy_count shadow tick + (if isTruthyDeployFor tick r = true then 1 else 0) := by
  unfold truthy_deploy_count
  rw [List.filter_append, List.length_append]
  congr 1
  by_cases hr : isTruthyDeployFor tick r = true
  · rw [if_pos hr]
    simp [List.filter_cons, hr]
  · rw [if_neg hr]
    simp [List.filter_cons, hr]

theorem latestValidDeploy_eq_none (shadow : List SrcOp) (tick : String)
    (h : ∀ o ∈ shadow, isValidDeployFor tick o = false) :
    latestValidDeploy shadow tick = none := by
  unfold latestValidDeploy
  rw [List.find?_eq_none]
  intro x hx hc
  have hc' : isValidDeployFor tick x = true := hc
  rw [h x (List.mem_reverse.mp hx)] at hc'
  exact absurd hc' (by simp)

/-- Every processed record keeps the input's `op`, `tick`, `max` and
`lim` fields: the handlers only touch `amt`, `decv`, status, validity and
the running totals. -/
theorem processOp_fields (db : DbState) (shadow : List SrcOp) (o r : SrcOp)
    (h : validate_and_process_operation db shadow o = some r) :
    r.op = o.op ∧ r.tick = o.tick ∧ r.maxv = o.maxv ∧ r.limv = o.limv := by
  unfold validate_and_process_operation at h
  dsimp only at h
  split at h
  · obtain rfl := (Option.some.inj h).symm
    exact ⟨rfl, rfl, rfl, rfl⟩
  · split at h
    · obtain rfl := (Option.some.inj h).symm
      exact ⟨rfl, rfl, rfl, rfl⟩
    · split at h
      · obtain rfl := (Option.some.inj h).symm
        unfold handle_deploy
        dsimp only
        repeat' split
        all_goals exact ⟨rfl, rfl, rfl, rfl⟩
      · split at h
        · unfold handle_mint at h
          dsimp only at h
          repeat' split at h
          all_goals first
            | exact Option.noConfusion h
            | (obtain rfl := (Option.some.inj h).symm
               exact ⟨rfl, rfl, rfl, rfl⟩)
        · split at h
          · unfold handle_transfer at h
            dsimp only at h
            repeat' split at h
            all_goals first
              | exact Option.noConfusion h
              | (obtain rfl := (Option.some.inj h).symm
                 exact ⟨rfl, rfl, rfl, rfl⟩)
          · obtain rfl := (Option.some.inj h).symm
            exact ⟨rfl, rfl, rfl, rfl⟩

/-- An accepted DEPLOY record can only come out of `handle_deploy`'s
accepting branch: the deploy lookup (shadow list first, then the
persistent store) for its tick was untruthy on both `lim` and `max`. -/
theorem processOp_new_deploy (db : DbState) (shadow : List SrcOp) (o r : SrcOp) (t : String)
    (h : validate_and_process_operation db shadow o = some r)
    (hvd : isValidDeployFor t r = true) (hov : o.valid = false) :
    optTruthy (get_src20_deploy db.deployRow shadow o.tick).1 = false ∧
    optTruthy (get_src20_deploy db.deployRow shadow o.tick).2.1 = false ∧ o.tick = t := by
  obtain ⟨hop', htick, -, -⟩ := processOp_fields db shadow o r h
  have hvd' : r.valid = true ∧ strUpper r.op = "DEPLOY" ∧ r.tick = t := by
    simpa [isValidDeployFor] using hvd
  have hopD : strUpper o.op = "DEPLOY" := by rw [← hop']; exact hvd'.2.1
  have htk : o.tick = t := by rw [← htick]; exact hvd'.2.2
  unfold validate_and_process_operation at h
  dsimp only at h
  rw [hopD] at h
  have hna : ¬((("DEPLOY" : String) = "TRANSFER" ∨ ("DEPLOY" : String) = "MINT") ∧
      amtFalsy o = true) := by
    rintro ⟨h1 | h1, -⟩ <;> exact absurd h1 (by decide)
  have hnd : ¬(¬ optTruthy (get_src20_deploy db.deployRow shadow o.tick).1 = true ∧
      ¬ optTruthy (get_src20_deploy db.deployRow shadow o.tick).2.1 = true ∧
      (("DEPLOY" : String) = "TRANSFER" ∨ ("DEPLOY" : String) = "MINT")) := by
    rintro ⟨-, -, h1 | h1⟩ <;> exact absurd h1 (by decide)
  rw [if_neg hna, if_neg hnd, if_pos (show ("DEPLOY" : String) = "DEPLOY" from rfl)] at h
  have hr := (Option.some.inj h).symm
  by_cases hde : ¬ optTruthy (get_src20_deploy db.deployRow shadow o.tick).1 = true ∧
      ¬ optTruthy (get_src20_deploy db.deployRow shadow o.tick).2.1 = true
  · exact ⟨Bool.eq_false_iff.mpr hde.1, Bool.eq_false_iff.mpr hde.2, htk⟩
  · exfalso
    have hrde : r = set_status_and_log o "DE" := by
      rw [hr]
      unfold handle_deploy
      rw [if_neg hde]
    have hval : r.valid = true := hvd'.1
    rw [hrde] at hval
    have hval' : o.valid = true := hval
    rw [hov] at hval'
    exact absurd hval' (by simp)

/-- Appending one processed record preserves the single-deploy
invariant. -/
theorem deploy_inv_step (db : DbState) (t : String) (start : List SrcOp) (o r : SrcOp)
    (hov : o.valid = false)
    (hA : db_has_truthy_deploy db t = true → ∀ x ∈ start, isValidDeployFor t x = false)
    (hB : truthy_deploy_count start t ≤ 1)
    (hC : truthy_deploy_count start t = 1 →
      ∃ d, latestValidDeploy start t = some d ∧ isTruthyDeployFor t d = true)
    (h : validate_and_process_operation db start o = some r) :
    (db_has_truthy_deploy db t = true → ∀ x ∈ start ++ [r], isValidDeployFor t x = false) ∧
      truthy_deploy_count (start ++ [r]) t ≤ 1 ∧
      (truthy_deploy_count (start ++ [r]) t = 1 →
        ∃ d, latestValidDeploy (start ++ [r]) t = some d ∧ isTruthyDeployFor t d = true) := by
  by_cases hvd : isValidDeployFor t r = true
  · obtain ⟨hl, hm2, htk⟩ := processOp_new_deploy db start o r t h hvd hov
    rw [htk] at hl hm2
    have hdbf : ∀ (hdbt : db_has_truthy_deploy db t = true), False := by
      intro hdbt
      have hnone : latestValidDeploy start t = none :=
        latestValidDeploy_eq_none start t (hA hdbt)
      have hlook := get_src20_deploy_eq db.deployRow start t
      unfold db_has_truthy_deploy at hdbt
      cases hrow : db.deployRow t with
      | none => simp [hrow] at hdbt
      | some row =>
        simp only [hrow] at hdbt
        simp only [hnone, hrow] at hlook
        simp only [decide_eq_true_eq] at hdbt
        rw [hlook] at hl hm2
        rcases hdbt with hx | hx
        · rw [hl] at hx
          exact absurd hx (by simp)
        · rw [hm2] at hx
          exact absurd hx (by simp)
    have hc0 : truthy_deploy_count start t = 0 := by
      rcases Nat.lt_or_ge (truthy_deploy_count start t) 1 with hlt | hge
      · omega
      · exfalso
        have hc1 : truthy_deploy_count start t = 1 := by omega
        obtain ⟨d, hd1, hd2⟩ := hC hc1
        have hlook := get_src20_deploy_eq db.deployRow start t
        simp only [hd1] at hlook
        rw [hlook] at hl hm2
        have hld : optTruthy d.limv = false := hl
        have hmd : optTruthy d.maxv = false := hm2
        have hd2' : isValidDeployFor t d = true ∧
            (optTruthy d.maxv = true ∨ optTruthy d.limv = true) := by
          simpa [isTruthyDeployFor] using hd2
        rcases hd2'.2 with hx | hx
        · rw [hmd] at hx
          exact absurd hx (by simp)
        · rw [hld] at hx
          exact absurd hx (by simp)
    refine ⟨fun hdbt => (hdbf hdbt).elim, ?_, ?_⟩
    · rw [truthy_deploy_count_append, hc0]
      split <;> omega
    · intro hc1'
      rw [truthy_deploy_count_append, hc0] at hc1'
      have htr : isTruthyDeployFor t r = true := by
        by_cases htr : isTruthyDeployFor t r = true
        · exact htr
        · rw [if_neg htr] at hc1'
          exact absurd hc1' (by simp)
      refine ⟨r, ?_, htr⟩
      rw [latestValidDeploy_append, if_pos hvd]
  · have hvd' : isValidDeployFor t r = false := Bool.eq_false_iff.mpr hvd
    have htd : isTruthyDeployFor t r = false := by
      cases hb : isTruthyDeployFor t r with
      | false => rfl
      | true =>
        exfalso
        have hb' : isValidDeployFor t r = true ∧
            (optTruthy r.maxv = true ∨ optTruthy r.limv = true) := by
          simpa [isTruthyDeployFor] using hb
        exact absurd hb'.1 hvd
    refine ⟨?_, ?_, ?_⟩
    · intro hdbt x hx
      rcases List.mem_append.mp hx with hx | hx
      · exact hA hdbt x hx
      · have hxr : x = r := by simpa using hx
        rw [hxr]
        exact hvd'
    · rw [truthy_deploy_count_append, if_neg (by simp [htd])]
      omega
    · intro hc1'
      rw [truthy_deploy_count_append, if_neg (by simp [htd])] at hc1'
      obtain ⟨d, hd1, hd2⟩ := hC (by omega)
      refine ⟨d, ?_, hd2⟩
      rw [latestValidDeploy_append, if_neg (by simp [hvd']), hd1]

/-- The single-deploy invariant holds along the whole per-block fold. -/
theorem process_block_deploy_inv (db : DbState) (t : String) (ops : List SrcOp) :
    ∀ (start shadow : List SrcOp),
      (∀ o ∈ ops, o.valid = false) →
      (db_has_truthy_deploy db t = true → ∀ x ∈ start, isValidDeployFor t x = false) →
      truthy_deploy_count start t ≤ 1 →
      (truthy_deploy_count start t = 1 →
        ∃ d, latestValidDeploy start t = some d ∧ isTruthyDeployFor t d = true) →
      ops.foldl (process_step db) (some start) = some shadow →
      ((db_has_truthy_deploy db t = true → ∀ x ∈ shadow, isValidDeployFor t x = false) ∧
        truthy_deploy_count shadow t ≤ 1 ∧
        (truthy_deploy_count shadow t = 1 →
          ∃ d, latestValidDeploy shadow t = some d ∧ isTruthyDeployFor t d = true)) := by
  induction ops with
  | nil =>
    intro start shadow hops hA hB hC h
    obtain rfl : start = shadow := Option.some.inj h
    exact ⟨hA, hB, hC⟩
  | cons o ops ih =>
    intro start shadow hops hA hB hC h
    rw [List.foldl_cons] at h
    have h2 : ops.foldl (process_step db)
        ((validate_and_process_operation db start o).map fun r => start ++ [r]) =
        some shadow := h
    cases hstep : validate_and_process_operation db start o with
    | none =>
      rw [hstep] at h2
      have h3 : ops.foldl (process_step db) none = some shadow := h2
      rw [process_chain_none] at h3
      exact absurd h3 (by simp)
    | some r =>
      rw [hstep] at h2
      have h3 : ops.foldl (process_step db) (some (start ++ [r])) = some shadow := h2
      obtain ⟨s1, s2, s3⟩ := deploy_inv_step db t start o r (hops o (by simp)) hA hB hC hstep
      exact ih (start ++ [r]) shadow (fun x hx => hops x (by simp [hx])) s1 s2 s3 h3

/-- C3 (amended).  For every tick, at most one DEPLOY with truthy (nonzero)
`max` or `lim` is ever accepted in a block, and none at all when the
persistent store already holds a truthy DEPLOY row for the tick; a DEPLOY
is rejected with status `DE` exactly on a truthy lookup — i.e. whenever an
earlier DEPLOY *with nonzero `max` or `lim`* exists in store or shadow
list.  (Unamended the claim is false: a prior accepted DEPLOY whose `max`
and `lim` are both zero does not trigger `DE`, so two DEPLOYs for one tick
can both be accepted — see the counterexample.) -/
theorem claim_C3 (db : DbState) (ops : List SrcOp) (shadow : List SrcOp) (t : String)
    (hov : ∀ o ∈ ops, o.valid = false)
    (h : process_block db ops = some shadow) :
    truthy_deploy_count shadow t ≤ 1 ∧
    (db_has_truthy_deploy db t = true → truthy_deploy_count shadow t = 0) ∧
    (∀ (s : List SrcOp) (o r : SrcOp), validate_and_process_operation db s o = some r →
      strUpper o.op = "DEPLOY" →
      (optTruthy (get_src20_deploy db.deployRow s o.tick).1 = true ∨
        optTruthy (get_src20_deploy db.deployRow s o.tick).2.1 = true) →
      r = set_status_and_log o "DE") := by
  rw [process_block_eq] at h
  obtain ⟨iA, iB, iC⟩ := process_block_deploy_inv db t ops [] shadow hov
    (fun _ x hx => absurd hx (List.not_mem_nil x))
    (by simp [truthy_deploy_count])
    (fun hc => absurd hc (by simp [truthy_deploy_count]))
    h
  refine ⟨iB, ?_, ?_⟩
  · intro hdbt
    have hall := iA hdbt
    unfold truthy_deploy_count
    rw [List.length_eq_zero, List.filter_eq_nil_iff]
    intro x hx hc
    have hc' : isTruthyDeployFor t x = true := hc
    have hc2 : isValidDeployFor t x = true ∧
        (optTruthy x.maxv = true ∨ optTruthy x.limv = true) := by
      simpa [isTruthyDeployFor] using hc'
    rw [hall x hx] at hc2
    exact absurd hc2.1 (by simp)
  · intro s o r hpr hopD htr
    unfold validate_and_process_operation at hpr
    dsimp only at hpr
    rw [hopD] at hpr
    have hna : ¬((("DEPLOY" : String) = "TRANSFER" ∨ ("DEPLOY" : String) = "MINT") ∧
        amtFalsy o = true) := by
      rintro ⟨h1 | h1, -⟩ <;> exact absurd h1 (by decide)
    have hnd : ¬(¬ optTruthy (get_src20_deploy db.deployRow s o.tick).1 = true ∧
        ¬ optTruthy (get_src20_deploy db.deployRow s o.tick).2.1 = true ∧
        (("DEPLOY" : String) = "TRANSFER" ∨ ("DEPLOY" : String) = "MINT")) := by
      rintro ⟨-, -, h1 | h1⟩ <;> exact absurd h1 (by decide)
    rw [if_neg hna, if_neg hnd, if_pos (show ("DEPLOY" : String) = "DEPLOY" from rfl)] at hpr
    have hr := (Option.some.inj hpr).symm
    rw [hr]
    unfold handle_deploy
    rw [if_neg (by
      rintro ⟨h1, h2⟩
      rcases htr with hx | hx
      · exact h1 hx
      · exact h2 hx)]

/-- C3, divergence from the unamended claim: two identical DEPLOYs of tick
`"zero"` carrying `max = 0` and `lim = 0` in one block are both accepted as
valid — the second is not rejected with `DE` although a DEPLOY record for
the tick already exists earlier in the block. -/
theorem claim_C3_counterexample :
    (process_block dbE [opDz, opDz]).map (fun sh => valid_deploy_count sh "zero") =
      some 2 := by
  decide

theorem claim_C3_witness :
    truthy_deploy_count [{ opD1 with valid := true }] "dogs" ≤ 1 ∧
    (db_has_truthy_deploy dbE "dogs" = true →
      truthy_deploy_count [{ opD1 with valid := true }] "dogs" = 0) ∧
    (∀ (s : List SrcOp) (o r : SrcOp), validate_and_process_operation dbE s o = some r →
      strUpper o.op = "DEPLOY" →
      (optTruthy (get_src20_deploy dbE.deployRow s o.tick).1 = true ∨
        optTruthy (get_src20_deploy dbE.deployRow s o.tick).2.1 = true) →
      r = set_status_and_log o "DE") :=
  claim_C3 dbE [opD1] [{ opD1 with valid := true }] "dogs" (by decide) (by decide)

end BtcStamps
